import Mathlib

/-!
# twitch-clipper: playlist resolution, clip assembly and preview extraction

A shallow embedding of `twitch.go` (`FetchTwitchStream`, `MakeClip`,
`MakePreview`) and the properties of it that the design document states.

* Text and payloads are lists of characters (`Str`); the two regular
  expressions of the source are embedded as the matchers they denote.
* The outside world (clock, HTTP upstream, filesystem, external processes) is
  an oracle `Env`; everything the program does to it is recorded in `World`.
* The goroutines of `MakeClip` are a step relation driven by a schedule.
-/

namespace TwitchClipper

/-! ## Definitions: the embedding of the program -/

/-- Text and raw payloads: Go `string` and `[]byte` values. -/
abbrev Str := List Char

/-- Removes a literal from the front of a text, when the text starts with it. -/
def dropLit : Str → Str → Option Str
  | [], s => some s
  | _ :: _, [] => none
  | p :: ps, c :: cs => if p = c then dropLit ps cs else none

/-- The longest run of characters other than a newline at the front of a text:
what a greedy `.*` consumes (`.` does not match a newline). -/
def lineOf : Str → Str
  | [] => []
  | c :: cs => if c = '\n' then [] else c :: lineOf cs

/-- The text after the run consumed by `lineOf`. -/
def afterLine : Str → Str
  | [] => []
  | c :: cs => if c = '\n' then c :: cs else afterLine cs

/-- Whether a text ends with the literal `live`. -/
def endsLive (s : Str) : Bool :=
  s.reverse.take 4 = ['e', 'v', 'i', 'l']

/-- A match of `urlExp = "https?://.+"` anchored at the front of the text:
`http`, an optional `s` (taken when the rest still matches), `://`, then one
or more characters up to the end of the line. -/
def urlAt (s : Str) : Option Str :=
  match dropLit "https://".toList s with
  | some r => if lineOf r = [] then none else some ("https://".toList ++ lineOf r)
  | none =>
    match dropLit "http://".toList s with
    | some r => if lineOf r = [] then none else some ("http://".toList ++ lineOf r)
    | none => none

/-- The result of `urlExp.FindAllString(body, 1)`: the leftmost match, if any. -/
def findUrl : Str → Option Str
  | [] => none
  | c :: cs =>
    match urlAt (c :: cs) with
    | some m => some m
    | none => findUrl cs

/-- A match of `m3SegmentExp = "#EXTINF:.*live\n.+"` anchored at the front of the
text: the literal `#EXTINF:`, the rest of that line, which has to end in `live`
and be followed by a newline, then a non-empty next line. -/
def segmentAt (s : Str) : Option Str :=
  match dropLit "#EXTINF:".toList s with
  | none => none
  | some r =>
    if endsLive (lineOf r) then
      match afterLine r with
      | [] => none
      | _ :: rest =>
        if lineOf rest = [] then none
        else some ("#EXTINF:".toList ++ lineOf r ++ '\n' :: lineOf rest)
    else none

/-- The scan of `FindAllString(body, -1)`: `skip` characters still belong to the
previous match; at any other position a match is tried, leftmost first, and
the matches do not overlap. -/
def scanSegments : Nat → Str → List Str
  | _, [] => []
  | skip + 1, _ :: cs => scanSegments skip cs
  | 0, c :: cs =>
    match segmentAt (c :: cs) with
    | some m => m :: scanSegments (m.length - 1) cs
    | none => scanSegments 0 cs

/-- The result of `m3SegmentExp.FindAllString(body, -1)`. -/
def findAllSegments (body : Str) : List Str :=
  scanSegments 0 body

/-- The value of `strings.Index(s, "\n")`: the position of the first newline, or -1. -/
def indexNewline : Str → Int
  | [] => -1
  | c :: cs => if c = '\n' then 0 else
    match indexNewline cs with
    | Int.negSucc _ => -1
    | Int.ofNat k => Int.ofNat (k + 1)

/-- The slice `s[strings.Index(s, "\n")+1:]` taken of every match. -/
def afterMarker (s : Str) : Str :=
  s.drop (indexNewline s + 1).toNat

/-- The segment list built from a secondary playlist body (lines 86 to 94 of
`twitch.go`, without the emptiness test). -/
def segmentsOf (body : Str) : List Str :=
  (findAllSegments body).map afterMarker

/-- Instants (`time.Time`), in nanoseconds relative to the Unix epoch. -/
abbrev Time := Int

/-- The zero value of `time.Time` (1 January of year 1). -/
def zeroTime : Time := -62135596800000000000

/-- The duration `time.Hour`, in nanoseconds. -/
def hour : Int := 3600000000000

/-- The value of `t.Unix()`: whole seconds. -/
def unixOf (t : Time) : Int := t / 1000000000

/-- The constants `http.StatusOK` and `http.StatusNotFound`. -/
def statusOK : Nat := 200

def statusNotFound : Nat := 404

/-- A cache entry, `type pCache struct`. -/
structure pCache where
  Expiry : Time
  Body : Str
deriving DecidableEq, Repr

/-- The zero value a Go map lookup yields for a missing key. -/
def pCache.zero : pCache := { Expiry := zeroTime, Body := [] }

/-- Non-nil `error` values. -/
inductive GoErr where
  /-- Line 37: `failed fetching stream segments after %v tries`. -/
  | exhausted (retries : Int)
  /-- The sentinel `ErrStreamNotFound`. -/
  | streamNotFound
  /-- Line 60: `proxy -> bad status code (%v)` with the body attached. -/
  | badStatus (code : Nat) (body : Str)
  /-- Line 66: `no stream playlist available`. -/
  | noPlaylist
  /-- An error returned by a library call (net/http, io, os, os/exec). -/
  | external (msg : Str)
deriving DecidableEq, Repr

instance instDecEqExcept {ε α : Type} [DecidableEq ε] [DecidableEq α] :
    DecidableEq (Except ε α)
  | .ok a, .ok b => if h : a = b then isTrue (by rw [h]) else isFalse (by intro h2; cases h2; exact h rfl)
  | .error a, .error b =>
    if h : a = b then isTrue (by rw [h]) else isFalse (by intro h2; cases h2; exact h rfl)
  | .ok _, .error _ => isFalse (by intro h; cases h)
  | .error _, .ok _ => isFalse (by intro h; cases h)

/-- What one `httpClient.Get` yields, together with what reading the body of
its response yields afterwards (`io.ReadAll`, `io.Copy`). -/
inductive GetResult where
  /-- The call returned `err != nil`; the response pointer is nil unless
  `hasRes` (redirect policy failure: a response whose body is closed). -/
  | fail (e : GoErr) (hasRes : Bool)
  /-- The call returned a response and a nil error. -/
  | resp (status : Nat) (body : Except GoErr Str)
deriving DecidableEq, Repr

/-- The two kinds of request of the program: the manifest endpoint, whose URL
is built from the escaped channel name, and a URL taken from a playlist. -/
inductive Request where
  | manifest (channel : Str)
  | url (u : Str)
deriving DecidableEq, Repr

/-- The observable actions of the program. -/
inductive Event where
  | httpGet (r : Request)
  | mkdirAll (p : Str)
  | create (p : Str)
  | remove (p : Str)
  /-- Running `ffmpeg` with the given arguments; `stdin` is the byte stream
  written to its standard input, when it has a pipe. -/
  | exec (args : List Str) (stdin : Option Str)
deriving DecidableEq, Repr

/-- The behaviour of everything outside the program. Answers may depend on
everything the program did before (`List Event`). -/
structure Env where
  /-- The reading of the `k`-th call of `time.Now`. -/
  now : Nat → Time
  /-- The answer to a request issued after the given history. -/
  get : List Event → Request → GetResult
  /-- The answer to the download of clip task `i`. -/
  download : Nat → Str → GetResult
  /-- Whether `os.MkdirAll` succeeds (its error is discarded by the program). -/
  mkdirOk : Str → Bool
  /-- The error of `os.Create`, if any. -/
  createErr : Str → Option GoErr
  /-- The error of writing the copied body to the temporary file, if any. -/
  writeErr : Str → Option GoErr
  /-- Whether `os.Remove` succeeds (its error is discarded by the program). -/
  removeOk : Str → Bool
  /-- The error of `cmd.StdinPipe`, if any. -/
  pipeErr : Option GoErr
  /-- The error of `cmd.Run`, if any, given the arguments and the input. -/
  runErr : List Str → Option Str → Option GoErr
  /-- The library function `path.Dir`. -/
  pathDir : Str → Str
  /-- The rendering of an integer by `%v`. -/
  fmtInt : Int → Str

/-- The state the program acts on: its package-level cache, how many clock
readings it took, the history of its actions, and the filesystem entries it
created that still exist. -/
structure World where
  playlistCache : Str → pCache
  ticks : Nat
  trace : List Event
  fs : List Str

/-- The assignment `playlistCache[channelName] = d`. -/
def World.store (w : World) (channelName : Str) (d : pCache) : World :=
  { w with playlistCache := fun c => if c = channelName then d else w.playlistCache c }

/-- One reading of `time.Now`. -/
def World.tick (w : World) : World := { w with ticks := w.ticks + 1 }

/-- Recording one action. -/
def World.emit (w : World) (e : Event) : World := { w with trace := w.trace ++ [e] }

/-- Lines 40 to 62: the cache lookup and, when the entry is stale, the fetch of
the primary manifest. Yields the local `d` on the paths that go on. -/
def loadManifest (env : Env) (channelName : Str) (w : World) : Except GoErr pCache × World :=
  let d := w.playlistCache channelName
  let now := env.now w.ticks
  let w := w.tick
  if now > d.Expiry then
    let r := env.get w.trace (.manifest channelName)
    let w := w.emit (.httpGet (.manifest channelName))
    match r with
    | .fail e _ => (.error e, w)
    | .resp _ (.error e) => (.error e, w)
    | .resp status (.ok buf) =>
      let d := { d with Body := buf }
      if status = statusNotFound then (.error .streamNotFound, w)
      else if status ≠ statusOK then (.error (.badStatus status d.Body), w)
      else (.ok d, w)
  else (.ok d, w)

/-- How one pass through the body of `FetchTwitchStream` ends: with a return
value, or with the recursive call `FetchTwitchStream(channelName, retries+1)`. -/
inductive Pass where
  | ret (r : Except GoErr (List Str))
  | again

/-- Lines 40 to 100: one pass through the body of `FetchTwitchStream`, after
the test of `retries`. -/
def pass (env : Env) (channelName : Str) (w : World) : Pass × World :=
  match loadManifest env channelName w with
  | (.error e, w) => (.ret (.error e), w)
  | (.ok d, w) =>
    match findUrl d.Body with
    | none => (.ret (.error .noPlaylist), w)
    | some u =>
      let r := env.get w.trace (.url u)
      let w := w.emit (.httpGet (.url u))
      match r with
      | .fail e _ => (.ret (.error e), w)
      | .resp status body =>
        if status ≠ statusOK then
          let d := { d with Expiry := env.now w.ticks }
          (.again, (w.tick).store channelName d)
        else
          match body with
          | .error e => (.ret (.error e), w)
          | .ok buf =>
            let filter := findAllSegments buf
            if filter.length = 0 then (.again, w)
            else
              let segments := filter.map afterMarker
              let d := { d with Expiry := env.now w.ticks + hour }
              (.ret (.ok segments), (w.tick).store channelName d)

/-- The function `FetchTwitchStream(channelName, retries)`. -/
def FetchTwitchStream (env : Env) (channelName : Str) (retries : Int) (w : World) :
    Except GoErr (List Str) × World :=
  if retries > 3 then (.error (.exhausted retries), w)
  else
    match pass env channelName w with
    | (.ret r, w1) => (r, w1)
    | (.again, w1) => FetchTwitchStream env channelName (retries + 1) w1
termination_by (4 - retries).toNat
decreasing_by omega

/-- The requests to the primary manifest endpoint among some actions. -/
def manifestGets : List Event → Nat
  | [] => 0
  | .httpGet (.manifest _) :: es => manifestGets es + 1
  | _ :: es => manifestGets es

/-- The requests to playlist URLs (secondary playlists, segments) among some actions. -/
def urlGets : List Event → Nat
  | [] => 0
  | .httpGet (.url _) :: es => urlGets es + 1
  | _ :: es => urlGets es

/-- An upstream whose manifest names a playlist and whose playlist holds no
live-segment entry. -/
def envEmpty : Env where
  now := fun _ => 0
  get := fun _ r =>
    match r with
    | .manifest _ => .resp 200 (.ok "http://p/q.m3u8".toList)
    | .url _ => .resp 200 (.ok "#EXTM3U\n".toList)
  download := fun _ _ => .resp 200 (.ok [])
  mkdirOk := fun _ => true
  createErr := fun _ => none
  writeErr := fun _ => none
  removeOk := fun _ => true
  pipeErr := none
  runErr := fun _ _ => none
  pathDir := fun p => p
  fmtInt := fun _ => ['0']

/-- The world at program start: an empty cache, nothing done yet. -/
def World.initial : World where
  playlistCache := fun _ => pCache.zero
  ticks := 0
  trace := []
  fs := []

/-- A live-segment marker line: `#EXTINF:`, any text, `live`. -/
def markerLine (x : Str) : Str := "#EXTINF:".toList ++ x ++ "live".toList

/-- A playlist body made of live-segment entries only: each entry is a marker
line (given by its middle text) followed by a URL line; `trailing` tells
whether the last line ends in a newline. -/
def playlistOf (trailing : Bool) : List (Str × Str) → Str
  | [] => []
  | [(x, u)] => markerLine x ++ '\n' :: u ++ (if trailing then ['\n'] else [])
  | (x, u) :: e :: es => markerLine x ++ '\n' :: u ++ '\n' :: playlistOf trailing (e :: es)

/-- A text without a newline character: one line. -/
def oneLine (s : Str) : Prop := ∀ c ∈ s, c ≠ '\n'

/-- An upstream with a live channel whose secondary playlist holds two
live-segment entries; every other operation succeeds. -/
def envLive : Env where
  now := fun _ => 0
  get := fun _ r =>
    match r with
    | .manifest _ => .resp 200 (.ok "http://p/q.m3u8".toList)
    | .url _ => .resp 200 (.ok (playlistOf true
        [("2.000,".toList, "https://s/1.ts".toList), ("2.000,".toList, "https://s/2.ts".toList)]))
  download := fun _ _ => .resp 200 (.ok [])
  mkdirOk := fun _ => true
  createErr := fun _ => none
  writeErr := fun _ => none
  removeOk := fun _ => true
  pipeErr := none
  runErr := fun _ _ => none
  pathDir := fun p => p
  fmtInt := fun _ => ['0']

/-- A clock that reads 100 at every call. -/
def envInstant : Env := { envLive with now := fun _ => 100 }

/-- A world whose cache holds, for the channel `chan`, an entry expiring at
instant 100. -/
def worldCached : World where
  playlistCache := fun c =>
    if c = "chan".toList then { Expiry := 100, Body := "http://old/q.m3u8".toList }
    else pCache.zero
  ticks := 0
  trace := []
  fs := []

/-- The package variables `clipsPath` and `previewsPath`. -/
def clipsPath : Str := "./clips".toList

def previewsPath : Str := "./previews".toList

/-- How a call of `MakeClip` or `MakePreview` ends: it returns its pair, it
panics, or (for `MakeClip` under a schedule that stops early) it has not
returned yet. A panic of a clip task after `MakeClip` returned shows in
`ClipState.crashed`, not here. -/
inductive Outcome where
  | ret (path : Str) (err : Option GoErr)
  | panic
  | pending
deriving DecidableEq, Repr

/-- The call `os.MkdirAll(p, os.ModePerm)`, whose error is discarded. Only the
named directory is tracked, not the parents it may create on the way. -/
def World.mkdirAll (env : Env) (w : World) (p : Str) : World :=
  let w := w.emit (.mkdirAll p)
  if env.mkdirOk p ∧ p ∉ w.fs then { w with fs := w.fs ++ [p] } else w

/-- The effect of a successful `os.Create(p)`. -/
def World.create (w : World) (p : Str) : World :=
  let w := w.emit (.create p)
  if p ∉ w.fs then { w with fs := w.fs ++ [p] } else w

/-- The call `os.Remove(p)`, whose error is discarded. -/
def World.remove (env : Env) (w : World) (p : Str) : World :=
  let w := w.emit (.remove p)
  if env.removeOk p then { w with fs := w.fs.filter (fun q => q ≠ p) } else w

/-- The scratch directory `<previews>/<channel>/temp` of line 194. -/
def tempDirOf (channelName : Str) : Str :=
  previewsPath ++ "/".toList ++ channelName ++ "/temp".toList

/-- The temporary file `<previews>/<channel>/temp/temp.ts` of line 197. -/
def tempVideoPathOf (channelName : Str) : Str :=
  tempDirOf channelName ++ "/temp.ts".toList

/-- The arguments of the frame extraction (lines 225 to 231). -/
def previewArgs (tempVideoPath previewPath : Str) : List Str :=
  ["-hide_banner".toList, "-i".toList, tempVideoPath, "-vframes".toList, "1".toList,
   "-f".toList, "image2".toList, "-update".toList, "1".toList, previewPath]

/-- Lines 190 to 239: `MakePreview` after a successful resolution. -/
def previewBody (env : Env) (channelName : Str) (segments : List Str) (w : World) :
    Outcome × World :=
  match segments.getLast? with
  | none => (.panic, w)
  | some lastSegment =>
    let tempDir := tempDirOf channelName
    let previewID := unixOf (env.now w.ticks)
    let w := w.tick
    let previewPath :=
      previewsPath ++ "/".toList ++ channelName ++ "/".toList ++ env.fmtInt previewID
        ++ ".jpg".toList
    let tempVideoPath := tempVideoPathOf channelName
    let w := w.mkdirAll env tempDir
    let r := env.get w.trace (.url lastSegment)
    let w := w.emit (.httpGet (.url lastSegment))
    match r with
    | .fail e _ => (.ret [] (some e), w)
    | .resp _ body =>
      match env.createErr tempVideoPath with
      | some e => (.ret [] (some e), w.emit (.create tempVideoPath))
      | none =>
        let w := w.create tempVideoPath
        -- from here on every return runs the deferred close and removal
        match body with
        | .error e => (.ret [] (some e), w.remove env tempVideoPath)
        | .ok _ =>
          match env.writeErr tempVideoPath with
          | some e => (.ret [] (some e), w.remove env tempVideoPath)
          | none =>
            let args := previewArgs tempVideoPath previewPath
            let w := w.emit (.exec args none)
            match env.runErr args none with
            | some e => (.ret [] (some e), w.remove env tempVideoPath)
            | none =>
              (.ret (channelName ++ "/".toList ++ env.fmtInt previewID ++ ".jpg".toList) none,
                w.remove env tempVideoPath)

/-- The function `MakePreview(channelName)`. -/
def MakePreview (env : Env) (channelName : Str) (w : World) : Outcome × World :=
  match FetchTwitchStream env channelName 1 w with
  | (.error e, w) => (.ret [] (some e), w)
  | (.ok segments, w) => previewBody env channelName segments w

/-- What a clip task has done so far: nothing; lines 125 to 131 (the fetch, the
first test of `futile`, the deferred close); everything. -/
inductive TaskPc where
  | start
  | fetched
  | done
deriving DecidableEq, Repr

/-- Where the goroutine of `MakeClip` itself is: in the loop over the channel
(or before it); after the assignment `futile = true` of line 150 and before
the `return` of line 151, holding the error it received; or returned. -/
inductive MainPc where
  | ranging
  | leaving (e : GoErr)
  | returned (path : Str) (err : Option GoErr)
deriving DecidableEq, Repr

/-- The goroutines that can take a step: clip task `i`, the goroutine that
waits for the group and closes the channel, and `MakeClip` itself. -/
inductive Action where
  | task (i : Nat)
  | closer
  | main
deriving DecidableEq, Repr

/-- The data of one call fixed before the tasks start (lines 104 to 113). -/
structure ClipJob where
  channelName : Str
  segments : List Str
  clipID : Int

/-- The shared state of the goroutines of one call of `MakeClip`. -/
structure ClipState where
  pcs : Nat → TaskPc
  /-- The slots of `buffer`; `none` is the nil slice `make` put there. -/
  buffer : Nat → Option Str
  /-- The values sent on `ch` and not yet received. -/
  chan : List (Option GoErr)
  closed : Bool
  futile : Bool
  /-- A goroutine panicked: the process is gone. -/
  crashed : Bool
  main : MainPc
  /-- The actions of this call, in order. -/
  events : List Event
  /-- The directories this call created. -/
  dirs : List Str

/-- The state at line 121, before any goroutine runs. -/
def ClipState.init : ClipState where
  pcs := fun _ => .start
  buffer := fun _ => none
  chan := []
  closed := false
  futile := false
  crashed := false
  main := .ranging
  events := []
  dirs := []

/-- The path `clipPath` of line 113. -/
def clipPathOf (env : Env) (job : ClipJob) : Str :=
  clipsPath ++ "/".toList ++ job.channelName ++ "/".toList ++ env.fmtInt job.clipID
    ++ ".mp4".toList

/-- The arguments of the transcoder (lines 157 to 162). -/
def clipArgs (env : Env) (job : ClipJob) : List Str :=
  ["-hide_banner".toList, "-f".toList, "mpegts".toList, "-i".toList, "-".toList,
   "-c:v".toList, "copy".toList, "-c:a".toList, "copy".toList, "-c:s".toList, "copy".toList,
   "-f".toList, "mp4".toList, clipPathOf env job]

/-- The answer to the download of task `i`. -/
def outcomeOf (env : Env) (job : ClipJob) (i : Nat) : GetResult :=
  env.download i (job.segments.getD i [])

/-- The body a download delivers, when both the fetch and the read succeed. -/
def GetResult.body? : GetResult → Option Str
  | .resp _ (.ok b) => some b
  | _ => none

/-- What the writer goroutine (lines 168 to 173) writes to the standard input of
the transcoder: the slots of `buffer`, in index order. -/
def ClipState.input (st : ClipState) (n : Nat) : Str :=
  (List.range n).flatMap (fun i => (st.buffer i).getD [])

/-- One step of clip task `i` (lines 122 to 140). -/
def taskStep (env : Env) (job : ClipJob) (st : ClipState) (i : Nat) : ClipState :=
  match st.pcs i with
  | .start =>
    let st : ClipState :=
      { st with events := st.events ++ [Event.httpGet (.url (job.segments.getD i []))] }
    match outcomeOf env job i with
    | .fail e hasRes =>
      if !st.futile then
        { st with chan := st.chan ++ [some e], pcs := Function.update st.pcs i .done }
      else if hasRes then
        { st with pcs := Function.update st.pcs i .fetched }
      else
        -- `defer res.Body.Close()` with a nil `res`
        { st with crashed := true }
    | .resp _ _ => { st with pcs := Function.update st.pcs i .fetched }
  | .fetched =>
    if !st.futile then
      match outcomeOf env job i with
      | .resp _ (.ok buf) =>
        { st with buffer := Function.update st.buffer i (some buf),
                  pcs := Function.update st.pcs i .done }
      | .resp _ (.error e) =>
        { st with chan := st.chan ++ [some e], pcs := Function.update st.pcs i .done }
      | .fail _ _ =>
        -- reading the closed body of the response that came with the error
        { st with chan := st.chan ++ [some (.external "read on closed response body".toList)],
                  pcs := Function.update st.pcs i .done }
    else { st with pcs := Function.update st.pcs i .done }
  | .done => st

/-- Lines 155 to 180: what `MakeClip` does once the loop over the channel ends. -/
def assemble (env : Env) (job : ClipJob) (st : ClipState) : ClipState :=
  let dir := env.pathDir (clipPathOf env job)
  let st : ClipState :=
    { st with events := st.events ++ [Event.mkdirAll dir],
              dirs := if env.mkdirOk dir then st.dirs ++ [dir] else st.dirs }
  match env.pipeErr with
  | some e => { st with main := .returned [] (some e) }
  | none =>
    let input := st.input job.segments.length
    let st : ClipState :=
      { st with events := st.events ++ [Event.exec (clipArgs env job) (some input)] }
    match env.runErr (clipArgs env job) (some input) with
    | some e => { st with main := .returned [] (some e) }
    | none =>
      let p := job.channelName ++ "/".toList ++ env.fmtInt job.clipID ++ ".mp4".toList
      { st with main := .returned p none }

/-- One step of `MakeClip` itself (lines 148 to 180): a receive from the channel
with, for a non-nil error, the assignment to `futile` (line 150); then, as a
step of its own, the `return` of line 151; or, once the channel is closed and
drained, the rest of the function. -/
def mainStep (env : Env) (job : ClipJob) (st : ClipState) : ClipState :=
  match st.main with
  | .returned _ _ => st
  | .leaving e => { st with main := .returned [] (some e) }
  | .ranging =>
    match st.chan with
    | some e :: rest => { st with chan := rest, futile := true, main := .leaving e }
    | none :: rest => { st with chan := rest }
    | [] => if st.closed then assemble env job st else st

/-- One step of the goroutine of lines 143 to 146. -/
def closerStep (job : ClipJob) (st : ClipState) : ClipState :=
  if (List.range job.segments.length).all (fun i => decide (st.pcs i = TaskPc.done)) then
    { st with closed := true }
  else st

/-- One scheduled step. Nothing runs after a panic. -/
def step (env : Env) (job : ClipJob) (st : ClipState) (a : Action) : ClipState :=
  if st.crashed then st
  else
    match a with
    | .task i => if i < job.segments.length then taskStep env job st i else st
    | .closer => closerStep job st
    | .main => mainStep env job st

/-- A run under a schedule. -/
def run (env : Env) (job : ClipJob) (st : ClipState) (sched : List Action) : ClipState :=
  sched.foldl (step env job) st

/-- Lines 109 to 113: the data of the call, with `clipID := time.Now().Unix()`. -/
def jobOf (env : Env) (channelName : Str) (segments : List Str) (w : World) : ClipJob :=
  { channelName := channelName, segments := segments, clipID := unixOf (env.now w.ticks) }

/-- Lines 109 to 180: `MakeClip` after a successful resolution, under a schedule. -/
def clipBody (env : Env) (sched : List Action) (channelName : Str) (segments : List Str)
    (w : World) : Outcome × World :=
  let job := jobOf env channelName segments w
  let st := run env job ClipState.init sched
  let w1 := w.tick
  let w2 := { w1 with trace := w1.trace ++ st.events, fs := w1.fs ++ st.dirs }
  match st.main with
  | .returned p e => (.ret p e, w2)
  | _ => if st.crashed then (.panic, w2) else (.pending, w2)

/-- The function `MakeClip(channelName)`, under a schedule of its goroutines. -/
def MakeClip (env : Env) (sched : List Action) (channelName : Str) (w : World) :
    Outcome × World :=
  match FetchTwitchStream env channelName 1 w with
  | (.error e, w) => (.ret [] (some e), w)
  | (.ok segments, w) => clipBody env sched channelName segments w

/-- An upstream for a channel that is not live. -/
def envOffline : Env :=
  { envLive with get := fun _ r =>
      match r with
      | .manifest _ => .resp 404 (.ok "not found".toList)
      | .url _ => .fail (.external "unreachable".toList) false }

/-- Whether an action belongs to the part of `MakeClip` after the loop over the
channel (lines 155 to 180): making the directory, running the transcoder. -/
def Event.isAssembly : Event → Bool
  | .mkdirAll _ => true
  | .exec _ _ => true
  | _ => false

/-- The stream the downloads determine: the bodies, in the order of the list. -/
def expectedInput (env : Env) (job : ClipJob) : Str :=
  (List.range job.segments.length).flatMap (fun i => ((outcomeOf env job i).body?).getD [])

/-- The schedule that lets every task run to its end, then the closing
goroutine, then `MakeClip` itself. -/
def finish (n : Nat) : List Action :=
  (List.range n).map Action.task ++ (List.range n).map Action.task ++ [.closer, .main]

/-- How far a task is. -/
def TaskPc.rank : TaskPc → Nat
  | .start => 0
  | .fetched => 1
  | .done => 2

/-- What holds in every state the goroutines of a call can reach. -/
structure Inv (env : Env) (job : ClipJob) (st : ClipState) : Prop where
  chanSome : ∀ x ∈ st.chan, ∃ e, x = some e
  futileMain : st.futile = true →
    ∃ e, st.main = .leaving e ∨ st.main = .returned [] (some e)
  leavingFutile : ∀ e, st.main = .leaving e → st.futile = true
  futileQuiet : st.futile = true → ∀ ev ∈ st.events, ev.isAssembly = false
  crashedFutile : st.crashed = true → st.futile = true
  doneSlot : ∀ i, i < job.segments.length → st.pcs i = .done →
    (∃ b, (outcomeOf env job i).body? = some b ∧ st.buffer i = some b) ∨
      (st.chan ≠ [] ∨ st.futile = true)
  closedDone : st.closed = true → ∀ i, i < job.segments.length → st.pcs i = .done
  errorFails : (st.chan ≠ [] ∨ st.futile = true) →
    ∃ i, i < job.segments.length ∧ (outcomeOf env job i).body? = none
  reachedAll : (∃ ev ∈ st.events, ev.isAssembly = true) →
    st.chan = [] ∧ st.futile = false ∧ st.closed = true
  rangingQuiet : st.main = .ranging → ∀ ev ∈ st.events, ev.isAssembly = false
  returnedOk : ∀ p err, st.main = .returned p err →
    (∃ ev ∈ st.events, ev.isAssembly = true) ∨ (p = [] ∧ (∃ e, err = some e) ∧ st.futile = true)
  slot : ∀ i, st.buffer i = none ∨ st.buffer i = (outcomeOf env job i).body?
  execInput : ∀ args inp, Event.exec args inp ∈ st.events →
    args = clipArgs env job ∧ inp = some (expectedInput env job)
  pipeExec : ∀ p err, st.main = .returned p err → (∃ ev ∈ st.events, ev.isAssembly = true) →
    env.pipeErr = none →
    Event.exec (clipArgs env job) (some (expectedInput env job)) ∈ st.events

/-- An upstream with a live channel with two segments whose bodies differ. -/
def envClip : Env :=
  { envLive with download := fun i _ =>
      match i with
      | 0 => .resp 200 (.ok "first".toList)
      | _ => .resp 200 (.ok "second".toList) }

/-- An upstream whose segment downloads all fail at the fetch, without a
response. -/
def envDown : Env :=
  { envLive with download := fun _ _ => .fail (.external "connection refused".toList) false }

/-- A call with two segments. -/
def jobTwo : ClipJob :=
  { channelName := "chan".toList, segments := ["https://s/1.ts".toList, "https://s/2.ts".toList],
    clipID := 0 }

/-! ## Theorems -/

/-- The two matchers on sample texts: the leftmost URL is found, with the
optional `s` only when a URL follows; the segment scan returns the lines after
the markers and lets a match swallow a marker that stands on a URL line. -/
theorem matchers_on_samples :
    findUrl "x http://a.b/c\nhttps://d".toList = some "http://a.b/c".toList ∧
    findUrl "https://\nhttp://q".toList = some "http://q".toList ∧
    segmentsOf
      "#EXTM3U\n#EXTINF:2.0,live\nhttps://s/1.ts\n#EXTINF:2.0,live\nhttps://s/2.ts\n".toList
      = ["https://s/1.ts".toList, "https://s/2.ts".toList] ∧
    segmentsOf "#EXTINF:2.0,live\n#EXTINF:2.0,live\nu\n".toList
      = ["#EXTINF:2.0,live".toList] := by
  decide

/-! ### FetchTwitchStream: unfolding, frame and retry bound -/

theorem manifestGets_append (a b : List Event) :
    manifestGets (a ++ b) = manifestGets a + manifestGets b := by
  induction a with
  | nil => simp [manifestGets]
  | cons e es ih =>
    cases e with
    | httpGet r => cases r <;> simp [manifestGets, ih]; omega
    | _ => simp [manifestGets, ih]

theorem urlGets_append (a b : List Event) :
    urlGets (a ++ b) = urlGets a + urlGets b := by
  induction a with
  | nil => simp [urlGets]
  | cons e es ih =>
    cases e with
    | httpGet r => cases r <;> simp [urlGets, ih]; omega
    | _ => simp [urlGets, ih]

theorem fetch_gt (env : Env) (ch : Str) (r : Int) (w : World) (h : r > 3) :
    FetchTwitchStream env ch r w = (.error (.exhausted r), w) := by
  rw [FetchTwitchStream, if_pos h]

theorem fetch_ret (env : Env) (ch : Str) (r : Int) (w w1 : World)
    (x : Except GoErr (List Str)) (h : r ≤ 3) (hp : pass env ch w = (.ret x, w1)) :
    FetchTwitchStream env ch r w = (x, w1) := by
  rw [FetchTwitchStream, if_neg (by omega), hp]

theorem fetch_again (env : Env) (ch : Str) (r : Int) (w w1 : World)
    (h : r ≤ 3) (hp : pass env ch w = (.again, w1)) :
    FetchTwitchStream env ch r w = FetchTwitchStream env ch (r + 1) w1 := by
  rw [FetchTwitchStream, if_neg (by omega), hp]

/-- Induction along the recursion of `FetchTwitchStream`. -/
theorem fetch_induct (env : Env) (ch : Str)
    (P : Int → World → Except GoErr (List Str) × World → Prop)
    (h0 : ∀ r w, r > 3 → P r w (.error (.exhausted r), w))
    (h1 : ∀ r w x w1, r ≤ 3 → pass env ch w = (.ret x, w1) → P r w (x, w1))
    (h2 : ∀ r w w1 y, r ≤ 3 → pass env ch w = (.again, w1) → P (r + 1) w1 y → P r w y) :
    ∀ r w, P r w (FetchTwitchStream env ch r w) := by
  intro r w
  generalize hn : (4 - r).toNat = n
  induction n generalizing r w with
  | zero => rw [fetch_gt env ch r w (by omega)]; exact h0 r w (by omega)
  | succ n ih =>
    have hr : r ≤ 3 := by omega
    rcases hp : pass env ch w with ⟨x | _, w1⟩
    · rw [fetch_ret env ch r w w1 x hr hp]; exact h1 r w x w1 hr hp
    · rw [fetch_again env ch r w w1 hr hp]
      exact h2 r w w1 _ hr hp (ih (r + 1) w1 (by omega))

/-- What `loadManifest` does when the entry is not stale: nothing but a clock reading. -/
theorem loadManifest_fresh (env : Env) (ch : Str) (w : World)
    (h : env.now w.ticks ≤ (w.playlistCache ch).Expiry) :
    loadManifest env ch w = (.ok (w.playlistCache ch), w.tick) := by
  simp only [loadManifest]
  rw [if_neg (not_lt.mpr h)]

/-- What `loadManifest` does when the entry is stale: one manifest request, whose
answer decides the outcome. -/
theorem loadManifest_stale (env : Env) (ch : Str) (w : World)
    (h : env.now w.ticks > (w.playlistCache ch).Expiry) :
    loadManifest env ch w =
      (match env.get w.trace (.manifest ch) with
        | .fail e _ => .error e
        | .resp _ (.error e) => .error e
        | .resp status (.ok buf) =>
          if status = statusNotFound then .error .streamNotFound
          else if status ≠ statusOK then .error (.badStatus status buf)
          else .ok { w.playlistCache ch with Body := buf },
       (w.tick).emit (.httpGet (.manifest ch))) := by
  simp only [loadManifest]
  rw [if_pos h]
  simp only [World.tick, World.emit]
  split <;> try rfl
  split_ifs <;> rfl

/-- The frame of `loadManifest`: the cache and the filesystem are untouched, and
at most one request, to the manifest endpoint, is added to the history. -/
theorem loadManifest_frame (env : Env) (ch : Str) (w : World) :
    (loadManifest env ch w).2.playlistCache = w.playlistCache ∧
    (loadManifest env ch w).2.fs = w.fs ∧
    (loadManifest env ch w).2.ticks = w.ticks + 1 ∧
    ((loadManifest env ch w).2.trace = w.trace ∨
     (loadManifest env ch w).2.trace = w.trace ++ [.httpGet (.manifest ch)]) := by
  by_cases h : env.now w.ticks > (w.playlistCache ch).Expiry
  · rw [loadManifest_stale env ch w h]; simp [World.tick, World.emit]
  · rw [loadManifest_fresh env ch w (not_lt.mp h)]; simp [World.tick]

theorem pass_load_error (env : Env) (ch : Str) (w w1 : World) (e : GoErr)
    (hl : loadManifest env ch w = (.error e, w1)) :
    pass env ch w = (.ret (.error e), w1) := by
  simp only [pass, hl]

theorem pass_no_url (env : Env) (ch : Str) (w w1 : World) (d : pCache)
    (hl : loadManifest env ch w = (.ok d, w1)) (hu : findUrl d.Body = none) :
    pass env ch w = (.ret (.error .noPlaylist), w1) := by
  simp only [pass, hl, hu]

/-- The second half of a pass (lines 69 to 100), once the manifest body is at
hand and holds a URL. -/
theorem pass_of_load (env : Env) (ch : Str) (w w1 : World) (d : pCache) (u : Str)
    (hl : loadManifest env ch w = (.ok d, w1)) (hu : findUrl d.Body = some u) :
    pass env ch w =
      match env.get w1.trace (.url u) with
      | .fail e _ => (.ret (.error e), w1.emit (.httpGet (.url u)))
      | .resp status body =>
        if status ≠ statusOK then
          (.again, ((w1.emit (.httpGet (.url u))).tick).store ch
            { d with Expiry := env.now w1.ticks })
        else
          match body with
          | .error e => (.ret (.error e), w1.emit (.httpGet (.url u)))
          | .ok buf =>
            if (findAllSegments buf).length = 0 then (.again, w1.emit (.httpGet (.url u)))
            else (.ret (.ok (segmentsOf buf)),
              ((w1.emit (.httpGet (.url u))).tick).store ch
                { d with Expiry := env.now w1.ticks + hour }) := by
  simp only [pass, hl, hu]
  rfl

/-- The frame of one pass: it adds at most one manifest request and at most one
playlist request to the history, and nothing else; the filesystem is untouched. -/
theorem pass_frame (env : Env) (ch : Str) (w : World) :
    (pass env ch w).2.fs = w.fs ∧
    ∃ evs, (pass env ch w).2.trace = w.trace ++ evs ∧ evs.length ≤ 2 ∧
      urlGets evs ≤ 1 ∧ manifestGets evs ≤ 1 ∧ urlGets evs + manifestGets evs = evs.length := by
  obtain ⟨-, hfs, -, htr⟩ := loadManifest_frame env ch w
  rcases hl : loadManifest env ch w with ⟨e | d, w1⟩
  · rw [pass_load_error env ch w w1 e hl]
    rw [hl] at hfs htr
    refine ⟨hfs, ?_⟩
    rcases htr with h | h
    · exact ⟨[], by simpa using h, by simp, by simp [urlGets], by simp [manifestGets],
        by simp [urlGets, manifestGets]⟩
    · exact ⟨_, h, by simp, by simp [urlGets], by simp [manifestGets],
        by simp [urlGets, manifestGets]⟩
  · rw [hl] at hfs htr
    simp only at hfs htr
    rcases hu : findUrl d.Body with _ | u
    · rw [pass_no_url env ch w w1 d hl hu]
      refine ⟨hfs, ?_⟩
      rcases htr with h | h
      · exact ⟨[], by simpa using h, by simp, by simp [urlGets], by simp [manifestGets],
          by simp [urlGets, manifestGets]⟩
      · exact ⟨_, h, by simp, by simp [urlGets], by simp [manifestGets],
          by simp [urlGets, manifestGets]⟩
    · have key : ∀ w2 : World, w2.fs = w1.fs → w2.trace = w1.trace ++ [.httpGet (.url u)] →
          w2.fs = w.fs ∧ ∃ evs, w2.trace = w.trace ++ evs ∧ evs.length ≤ 2 ∧
            urlGets evs ≤ 1 ∧ manifestGets evs ≤ 1 ∧
            urlGets evs + manifestGets evs = evs.length := by
        intro w2 h1 h2
        refine ⟨h1.trans hfs, ?_⟩
        rcases htr with h | h
        · exact ⟨_, by rw [h2, h], by simp, by simp [urlGets], by simp [manifestGets],
            by simp [urlGets, manifestGets]⟩
        · exact ⟨[.httpGet (.manifest ch), .httpGet (.url u)], by rw [h2, h]; simp, by simp,
            by simp [urlGets], by simp [manifestGets], by simp [urlGets, manifestGets]⟩
      rw [pass_of_load env ch w w1 d u hl hu]
      split
      · exact key _ rfl rfl
      · split_ifs
        · exact key _ rfl rfl
        · split
          · exact key _ rfl rfl
          · split_ifs
            · exact key _ rfl rfl
            · exact key _ rfl rfl

/-- The resources of a whole call: it touches no file and adds to the history
only requests, at most `4 - retries` to playlist URLs and as many to the
manifest endpoint. -/
theorem fetch_frame (env : Env) (ch : Str) (r : Int) (w : World) :
    (FetchTwitchStream env ch r w).2.fs = w.fs ∧
    ∃ evs, (FetchTwitchStream env ch r w).2.trace = w.trace ++ evs ∧
      urlGets evs ≤ (4 - r).toNat ∧ manifestGets evs ≤ (4 - r).toNat ∧
      urlGets evs + manifestGets evs = evs.length := by
  refine fetch_induct env ch (fun r w y => y.2.fs = w.fs ∧
    ∃ evs, y.2.trace = w.trace ++ evs ∧
      urlGets evs ≤ (4 - r).toNat ∧ manifestGets evs ≤ (4 - r).toNat ∧
      urlGets evs + manifestGets evs = evs.length) ?_ ?_ ?_ r w
  · intro r w _
    exact ⟨rfl, [], by simp, by simp [urlGets], by simp [manifestGets],
      by simp [urlGets, manifestGets]⟩
  · intro r w x w1 hr hp
    obtain ⟨hfs, evs, h1, _, h3, h4, h5⟩ := pass_frame env ch w
    rw [hp] at hfs h1
    exact ⟨hfs, evs, h1, by omega, by omega, h5⟩
  · intro r w w1 y hr hp ih
    obtain ⟨hfs, evs, h1, _, h3, h4, h5⟩ := pass_frame env ch w
    rw [hp] at hfs h1
    obtain ⟨ifs, evs2, i1, i3, i4, i5⟩ := ih
    refine ⟨ifs.trans hfs, evs ++ evs2, ?_, ?_, ?_, ?_⟩
    · rw [i1, h1, List.append_assoc]
    · rw [urlGets_append]; omega
    · rw [manifestGets_append]; omega
    · rw [urlGets_append, manifestGets_append, List.length_append]; omega

/-- One pass when the manifest is available and the secondary playlist answers
with status 200 and no live-segment entry: the pass ends in the recursive
call, after one playlist request, with the cache as it was. -/
theorem pass_empty (env : Env) (ch : Str) (w : World)
    (hman : ∀ tr, ∃ b, env.get tr (.manifest ch) = .resp statusOK (.ok b) ∧ findUrl b ≠ none)
    (hcache : ∀ k, env.now k ≤ (w.playlistCache ch).Expiry →
      findUrl (w.playlistCache ch).Body ≠ none)
    (hpl : ∀ tr u, ∃ b, env.get tr (.url u) = .resp statusOK (.ok b) ∧ findAllSegments b = []) :
    ∃ w1, pass env ch w = (.again, w1) ∧ w1.playlistCache = w.playlistCache ∧
      ∃ evs u, w1.trace = w.trace ++ evs ++ [.httpGet (.url u)] ∧ urlGets evs = 0 := by
  have step : ∀ (d : pCache) (w1 : World), loadManifest env ch w = (.ok d, w1) →
      findUrl d.Body ≠ none → w1.playlistCache = w.playlistCache →
      (∃ evs, w1.trace = w.trace ++ evs ∧ urlGets evs = 0) →
      ∃ w2, pass env ch w = (.again, w2) ∧ w2.playlistCache = w.playlistCache ∧
        ∃ evs u, w2.trace = w.trace ++ evs ++ [.httpGet (.url u)] ∧ urlGets evs = 0 := by
    intro d w1 hl hd hc ⟨evs, he, hz⟩
    rcases hu : findUrl d.Body with _ | u
    · exact absurd hu hd
    · obtain ⟨b, hb, hs⟩ := hpl w1.trace u
      rw [pass_of_load env ch w w1 d u hl hu, hb]
      simp only [ne_eq, not_true_eq_false, if_false, hs, List.length_nil, if_true]
      exact ⟨_, rfl, hc, evs, u, by simp [World.emit, he], hz⟩
  by_cases h : env.now w.ticks > (w.playlistCache ch).Expiry
  · obtain ⟨b, hb, hu⟩ := hman (w.tick).trace
    have hl := loadManifest_stale env ch w h
    have hb2 : env.get w.trace (.manifest ch) = .resp statusOK (.ok b) := hb
    rw [hb2] at hl
    simp only [statusOK, statusNotFound, ne_eq, not_true_eq_false, if_false] at hl
    norm_num at hl
    exact step _ _ hl hu rfl ⟨[.httpGet (.manifest ch)], rfl, by simp [urlGets]⟩
  · have h2 := not_lt.mp h
    exact step _ _ (loadManifest_fresh env ch w h2) (hcache _ h2) rfl
      ⟨[], by simp [World.tick], by simp [urlGets]⟩

/-- Claim C3: `FetchTwitchStream` is total (it is a terminating function of any
upstream behaviour) and its retry is bounded by the ceiling 3. (1) A call with
`retries > 3` returns the `failed fetching stream segments` error and leaves
the world as it was: no request, no change of the cache. (2) Whatever the
upstream answers, a call adds to the history only requests, at most
`4 - retries` playlist requests and as many manifest requests. (3) A call
started with `retries = 1` in which every secondary playlist answers with
status 200 and no live-segment entry performs exactly 3 playlist requests, the
third being the last action of the call, and returns the error of the fourth
invocation, with the cache as it was. -/
theorem FetchTwitchStream_retry_ceiling (env : Env) (ch : Str) :
    (∀ (r : Int) (w : World), r > 3 →
      FetchTwitchStream env ch r w = (.error (.exhausted r), w)) ∧
    (∀ (r : Int) (w : World), ∃ evs,
      (FetchTwitchStream env ch r w).2.trace = w.trace ++ evs ∧
      urlGets evs ≤ (4 - r).toNat ∧ manifestGets evs ≤ (4 - r).toNat ∧
      urlGets evs + manifestGets evs = evs.length) ∧
    (∀ w : World,
      (∀ tr, ∃ b, env.get tr (.manifest ch) = .resp statusOK (.ok b) ∧ findUrl b ≠ none) →
      (∀ k, env.now k ≤ (w.playlistCache ch).Expiry →
        findUrl (w.playlistCache ch).Body ≠ none) →
      (∀ tr u, ∃ b, env.get tr (.url u) = .resp statusOK (.ok b) ∧ findAllSegments b = []) →
      (FetchTwitchStream env ch 1 w).1 = .error (.exhausted 4) ∧
      (FetchTwitchStream env ch 1 w).2.playlistCache = w.playlistCache ∧
      ∃ evs u, (FetchTwitchStream env ch 1 w).2.trace = w.trace ++ evs ++ [.httpGet (.url u)] ∧
        urlGets (evs ++ [.httpGet (.url u)]) = 3) := by
  refine ⟨fun r w h => fetch_gt env ch r w h, fun r w => (fetch_frame env ch r w).2, ?_⟩
  intro w hman hcache hpl
  obtain ⟨w1, p1, c1, e1, u1, t1, z1⟩ := pass_empty env ch w hman hcache hpl
  obtain ⟨w2, p2, c2, e2, u2, t2, z2⟩ := pass_empty env ch w1 hman (by rw [c1]; exact hcache) hpl
  obtain ⟨w3, p3, c3, e3, u3, t3, z3⟩ :=
    pass_empty env ch w2 hman (by rw [c2, c1]; exact hcache) hpl
  rw [fetch_again env ch 1 w w1 (by omega) p1, fetch_again env ch (1 + 1) w1 w2 (by omega) p2,
    fetch_again env ch (1 + 1 + 1) w2 w3 (by omega) p3, fetch_gt env ch _ w3 (by omega)]
  refine ⟨by norm_num, by rw [c3, c2, c1], ?_⟩
  refine ⟨e1 ++ [.httpGet (.url u1)] ++ e2 ++ [.httpGet (.url u2)] ++ e3, u3, ?_, ?_⟩
  · simp only [t3, t2, t1, List.append_assoc]
  · simp only [urlGets_append, z1, z2, z3, urlGets]

/-- Witness of C3: an upstream whose playlists never hold a live-segment entry, from
the initial world, and a call above the ceiling. -/
theorem FetchTwitchStream_retry_ceiling_witness :
    (FetchTwitchStream envEmpty "chan".toList 1 World.initial).1 = .error (.exhausted 4) ∧
    (FetchTwitchStream envEmpty "chan".toList 5 World.initial).1 = .error (.exhausted 5) :=
  ⟨((FetchTwitchStream_retry_ceiling envEmpty "chan".toList).2.2 World.initial
      (fun _ => ⟨_, rfl, by decide⟩) (fun _ h => absurd h (show ¬ ((0 : Int) ≤ zeroTime) by decide))
      (fun _ _ => ⟨_, rfl, by decide⟩)).1,
   by rw [(FetchTwitchStream_retry_ceiling envEmpty "chan".toList).1 5 World.initial (by decide)]⟩

/-! ### The parse of the secondary playlist -/

theorem dropLit_append (p s : Str) : dropLit p (p ++ s) = some s := by
  induction p with
  | nil => cases s <;> rfl
  | cons c cs ih => simp [dropLit, ih]

theorem lineOf_append (x r : Str) (hx : oneLine x) (hr : r = [] ∨ ∃ r2, r = '\n' :: r2) :
    lineOf (x ++ r) = x := by
  induction x with
  | nil =>
    rcases hr with rfl | ⟨r2, rfl⟩
    · rfl
    · simp [lineOf]
  | cons c cs ih =>
    have hc : c ≠ '\n' := hx c (by simp)
    have hcs : oneLine cs := fun d hd => hx d (by simp [hd])
    simp [lineOf, hc, ih hcs]

theorem afterLine_append (x r : Str) (hx : oneLine x) (hr : r = [] ∨ ∃ r2, r = '\n' :: r2) :
    afterLine (x ++ r) = r := by
  induction x with
  | nil =>
    rcases hr with rfl | ⟨r2, rfl⟩
    · rfl
    · simp [afterLine]
  | cons c cs ih =>
    have hc : c ≠ '\n' := hx c (by simp)
    have hcs : oneLine cs := fun d hd => hx d (by simp [hd])
    simp [afterLine, hc, ih hcs]

theorem endsLive_append (x : Str) : endsLive (x ++ "live".toList) = true := by
  simp [endsLive]

theorem oneLine_append {a b : Str} (ha : oneLine a) (hb : oneLine b) : oneLine (a ++ b) := by
  intro c hc
  rcases List.mem_append.mp hc with h | h
  · exact ha c h
  · exact hb c h

theorem oneLine_marker (x : Str) (hx : oneLine x) : oneLine (markerLine x) := by
  unfold markerLine
  refine oneLine_append (oneLine_append ?_ hx) ?_
  · intro c hc; revert c; decide
  · intro c hc; revert c; decide

/-- The match anchored at an entry: the marker line and the URL line. -/
theorem segmentAt_entry (x u r : Str) (hx : oneLine x) (hu : oneLine u) (hne : u ≠ [])
    (hr : r = [] ∨ ∃ r2, r = '\n' :: r2) :
    segmentAt (markerLine x ++ '\n' :: u ++ r) = some (markerLine x ++ '\n' :: u) := by
  have hxl : oneLine (x ++ "live".toList) :=
    oneLine_append hx (by intro c hc; revert c; decide)
  have e1 : markerLine x ++ '\n' :: u ++ r =
      "#EXTINF:".toList ++ ((x ++ "live".toList) ++ '\n' :: (u ++ r)) := by
    simp [markerLine]
  have l1 : lineOf ((x ++ "live".toList) ++ '\n' :: (u ++ r)) = x ++ "live".toList :=
    lineOf_append _ _ hxl (Or.inr ⟨_, rfl⟩)
  have l2 : afterLine ((x ++ "live".toList) ++ '\n' :: (u ++ r)) = '\n' :: (u ++ r) :=
    afterLine_append _ _ hxl (Or.inr ⟨_, rfl⟩)
  have l3 : lineOf (u ++ r) = u := lineOf_append u r hu hr
  rw [e1]
  simp only [segmentAt, dropLit_append, l1, l2, l3, endsLive_append, if_true]
  rw [if_neg hne]
  simp [markerLine]

theorem scanSegments_skip (a r : Str) : scanSegments a.length (a ++ r) = scanSegments 0 r := by
  induction a with
  | nil => rfl
  | cons c cs ih => simpa [scanSegments] using ih

theorem scanSegments_newline (r : Str) : scanSegments 0 ('\n' :: r) = scanSegments 0 r := by
  have h : segmentAt ('\n' :: r) = none := by
    simp [segmentAt, dropLit]
  simp [scanSegments, h]

theorem markerLine_ne_nil (x : Str) : markerLine x ≠ [] := by
  simp [markerLine]

/-- The scan of a text that starts with an entry. -/
theorem scanSegments_entry (x u r : Str) (hx : oneLine x) (hu : oneLine u) (hne : u ≠ [])
    (hr : r = [] ∨ ∃ r2, r = '\n' :: r2) :
    scanSegments 0 (markerLine x ++ '\n' :: u ++ r) =
      (markerLine x ++ '\n' :: u) :: scanSegments 0 r := by
  have hs := segmentAt_entry x u r hx hu hne hr
  rcases hm : markerLine x with _ | ⟨c, cs⟩
  · exact absurd hm (markerLine_ne_nil x)
  · rw [hm] at hs
    have e : (c :: cs) ++ '\n' :: u ++ r = c :: ((cs ++ '\n' :: u) ++ r) := by simp
    rw [e] at hs ⊢
    simp only [scanSegments, hs]
    have hl : ((c :: cs) ++ '\n' :: u).length - 1 = (cs ++ '\n' :: u).length := by simp
    rw [hl, scanSegments_skip]

theorem indexNewline_append (a u : Str) (ha : oneLine a) :
    indexNewline (a ++ '\n' :: u) = Int.ofNat a.length := by
  induction a with
  | nil => simp [indexNewline]
  | cons c cs ih =>
    have hc : c ≠ '\n' := ha c (by simp)
    have hcs : oneLine cs := fun d hd => ha d (by simp [hd])
    simp [indexNewline, hc, ih hcs]

theorem afterMarker_entry (x u : Str) (hx : oneLine x) :
    afterMarker (markerLine x ++ '\n' :: u) = u := by
  unfold afterMarker
  rw [indexNewline_append _ _ (oneLine_marker x hx)]
  have : (Int.ofNat (markerLine x).length + 1).toNat = (markerLine x).length + 1 := by
    simp
  rw [this]
  simp [List.drop_append]

/-- The parse of a body made of live-segment entries: the URL lines, in order. -/
theorem segmentsOf_playlistOf (trailing : Bool) (es : List (Str × Str))
    (hwf : ∀ e ∈ es, oneLine e.1 ∧ oneLine e.2 ∧ e.2 ≠ []) :
    segmentsOf (playlistOf trailing es) = es.map Prod.snd := by
  induction es with
  | nil => rfl
  | cons e es ih =>
    obtain ⟨x, u⟩ := e
    obtain ⟨hx, hu, hne⟩ := hwf (x, u) (by simp)
    cases es with
    | nil =>
      have hr : (if trailing then ['\n'] else []) = [] ∨
          ∃ r2, (if trailing then ['\n'] else []) = '\n' :: r2 := by
        cases trailing
        · left; rfl
        · right; exact ⟨[], rfl⟩
      have e1 : playlistOf trailing [(x, u)] =
          markerLine x ++ '\n' :: u ++ (if trailing then ['\n'] else []) := rfl
      have hrest : scanSegments 0 (if trailing then ['\n'] else []) = [] := by
        cases trailing
        · rfl
        · exact scanSegments_newline []
      simp only [segmentsOf, findAllSegments, e1]
      rw [scanSegments_entry x u _ hx hu hne hr, hrest]
      simp [afterMarker_entry x u hx]
    | cons e2 es2 =>
      have e1 : playlistOf trailing ((x, u) :: e2 :: es2) =
          markerLine x ++ '\n' :: u ++ '\n' :: playlistOf trailing (e2 :: es2) := rfl
      have ih2 := ih (fun e he => hwf e (by simp [he]))
      simp only [segmentsOf, findAllSegments] at ih2 ⊢
      rw [e1, scanSegments_entry x u _ hx hu hne (Or.inr ⟨_, rfl⟩), scanSegments_newline]
      simp [afterMarker_entry x u hx, ih2]

theorem dropLit_some (p s r : Str) (h : dropLit p s = some r) : s = p ++ r := by
  induction p generalizing s with
  | nil =>
    cases s <;> simp [dropLit] at h <;> simp [h]
  | cons c cs ih =>
    cases s with
    | nil => simp [dropLit] at h
    | cons d ds =>
      simp only [dropLit] at h
      split_ifs at h with hcd
      rw [hcd, ih ds h]
      rfl

theorem line_split (s : Str) : lineOf s ++ afterLine s = s := by
  induction s with
  | nil => rfl
  | cons c cs ih =>
    by_cases hc : c = '\n'
    · simp [lineOf, afterLine, hc]
    · simp [lineOf, afterLine, hc, ih]

theorem oneLine_lineOf (s : Str) : oneLine (lineOf s) := by
  induction s with
  | nil => intro c hc; simp [lineOf] at hc
  | cons c cs ih =>
    by_cases hc : c = '\n'
    · intro d hd; simp [lineOf, hc] at hd
    · intro d hd
      simp only [lineOf, hc, if_false, List.mem_cons] at hd
      rcases hd with rfl | hd
      · exact hc
      · exact ih d hd

theorem afterLine_head (s rest : Str) (c : Char) (h : afterLine s = c :: rest) : c = '\n' := by
  induction s with
  | nil => simp [afterLine] at h
  | cons d ds ih =>
    by_cases hd : d = '\n'
    · simp only [afterLine, hd, if_true, List.cons.injEq] at h
      exact h.1.symm
    · simp only [afterLine, hd, if_false] at h
      exact ih h

theorem afterLine_shape (s : Str) : afterLine s = [] ∨ ∃ r, afterLine s = '\n' :: r := by
  rcases h : afterLine s with _ | ⟨c, rest⟩
  · exact Or.inl rfl
  · exact Or.inr ⟨rest, by rw [afterLine_head s rest c h]⟩

/-- Every anchored match is a marker line (the literal, then text that ends in
`live`), a newline, and a non-empty line, which is a whole line of the text. -/
theorem segmentAt_some (s m : Str) (h : segmentAt s = some m) :
    ∃ x u rest, s = "#EXTINF:".toList ++ x ++ '\n' :: u ++ rest ∧
      m = "#EXTINF:".toList ++ x ++ '\n' :: u ∧ oneLine x ∧ endsLive x = true ∧
      oneLine u ∧ u ≠ [] ∧ (rest = [] ∨ ∃ r2, rest = '\n' :: r2) := by
  unfold segmentAt at h
  rcases hd : dropLit "#EXTINF:".toList s with _ | r
  · rw [hd] at h; simp at h
  · rw [hd] at h
    simp only at h
    split_ifs at h with hlive
    rcases ha : afterLine r with _ | ⟨c, rest⟩
    · rw [ha] at h; simp at h
    · rw [ha] at h
      simp only at h
      split_ifs at h with hne
      simp only [Option.some.injEq] at h
      have hc := afterLine_head r rest c ha
      subst hc
      refine ⟨lineOf r, lineOf rest, afterLine rest, ?_, h.symm, oneLine_lineOf r, hlive,
        oneLine_lineOf rest, hne, afterLine_shape rest⟩
      have h1 := dropLit_some _ _ _ hd
      have h2 := line_split r
      rw [ha] at h2
      have h3 := line_split rest
      rw [h1]
      conv_lhs => rw [← h2, ← h3]
      simp

/-- Every match of the scan is an anchored match at some position of the text. -/
theorem scanSegments_mem (s : Str) (k : Nat) (m : Str) (h : m ∈ scanSegments k s) :
    ∃ pre t, s = pre ++ t ∧ segmentAt t = some m := by
  induction s generalizing k with
  | nil => simp [scanSegments] at h
  | cons c cs ih =>
    cases k with
    | succ k =>
      simp only [scanSegments] at h
      obtain ⟨pre, t, h1, h2⟩ := ih k h
      exact ⟨c :: pre, t, by rw [h1]; rfl, h2⟩
    | zero =>
      simp only [scanSegments] at h
      rcases hs : segmentAt (c :: cs) with _ | m2
      · rw [hs] at h
        obtain ⟨pre, t, h1, h2⟩ := ih 0 h
        exact ⟨c :: pre, t, by rw [h1]; rfl, h2⟩
      · rw [hs] at h
        simp only [List.mem_cons] at h
        rcases h with rfl | h
        · exact ⟨[], c :: cs, rfl, hs⟩
        · obtain ⟨pre, t, h1, h2⟩ := ih _ h
          exact ⟨c :: pre, t, by rw [h1]; rfl, h2⟩

theorem afterMarker_line (a u : Str) (ha : oneLine a) : afterMarker (a ++ '\n' :: u) = u := by
  unfold afterMarker
  rw [indexNewline_append _ _ ha]
  have : (Int.ofNat a.length + 1).toNat = a.length + 1 := by
    simp
  rw [this]
  simp [List.drop_append]

/-- Every element of a parsed segment list is a non-empty line of the body that
stands right after a marker line. -/
theorem segmentsOf_sound (body seg : Str) (h : seg ∈ segmentsOf body) :
    ∃ pre x post, body = pre ++ "#EXTINF:".toList ++ x ++ '\n' :: seg ++ post ∧
      oneLine x ∧ endsLive x = true ∧ oneLine seg ∧ seg ≠ [] ∧
      (post = [] ∨ ∃ post2, post = '\n' :: post2) := by
  obtain ⟨m, hm, rfl⟩ := List.mem_map.mp h
  obtain ⟨pre, t, h1, h2⟩ := scanSegments_mem body 0 m hm
  obtain ⟨x, u, rest, h3, h4, hx, hlive, hu, hne, hrest⟩ := segmentAt_some t m h2
  have hseg : afterMarker m = u := by
    rw [h4]
    exact afterMarker_line _ u (oneLine_append (by intro c hc; revert c; decide) hx)
  rw [hseg]
  refine ⟨pre, x, rest, ?_, hx, hlive, hu, hne, hrest⟩
  rw [h1, h3]; simp

/-! ### Successful resolution and the cache window -/

/-- The only way a pass returns a segment list: the playlist answered with
status 200 and at least one match, and the entry was stored with a one hour
window and the manifest body the pass used. -/
theorem pass_success (env : Env) (ch : Str) (w w1 : World) (segs : List Str)
    (hp : pass env ch w = (.ret (.ok segs), w1)) :
    ∃ d w0 u buf, loadManifest env ch w = (.ok d, w0) ∧ findUrl d.Body = some u ∧
      env.get w0.trace (.url u) = .resp statusOK (.ok buf) ∧
      segs = segmentsOf buf ∧ (findAllSegments buf).length ≠ 0 ∧
      w1 = ((w0.emit (.httpGet (.url u))).tick).store ch
        { d with Expiry := env.now w0.ticks + hour } := by
  rcases hl : loadManifest env ch w with ⟨e | d, w0⟩
  · rw [pass_load_error env ch w w0 e hl] at hp
    simp at hp
  · rcases hu : findUrl d.Body with _ | u
    · rw [pass_no_url env ch w w0 d hl hu] at hp
      simp at hp
    · rw [pass_of_load env ch w w0 d u hl hu] at hp
      rcases hg : env.get w0.trace (.url u) with ⟨e, b⟩ | ⟨st, body⟩
      · rw [hg] at hp; simp at hp
      · rw [hg] at hp
        simp only at hp
        by_cases hst : st = statusOK
        · subst hst
          rcases body with e | buf
          · simp at hp
          · by_cases hlen : (findAllSegments buf).length = 0
            · simp [hlen] at hp
            · simp only [ne_eq, not_true_eq_false, if_false, if_neg hlen, Prod.mk.injEq,
                Pass.ret.injEq, Except.ok.injEq] at hp
              exact ⟨d, w0, u, buf, rfl, hu, hg, hp.1.symm, hlen, hp.2.symm⟩
        · simp [hst] at hp

theorem loadManifest_body_url (env : Env) (ch : Str) (w w0 : World) (d : pCache)
    (hl : loadManifest env ch w = (.ok d, w0)) :
    w0.ticks = w.ticks + 1 ∧ w0.fs = w.fs := by
  obtain ⟨-, h2, h3, -⟩ := loadManifest_frame env ch w
  rw [hl] at h2 h3
  exact ⟨h3, h2⟩

/-- A pass takes at least one clock reading and never gives one back. -/
theorem pass_ticks (env : Env) (ch : Str) (w : World) : w.ticks < (pass env ch w).2.ticks := by
  obtain ⟨-, -, h3, -⟩ := loadManifest_frame env ch w
  rcases hl : loadManifest env ch w with ⟨e | d, w0⟩
  · rw [pass_load_error env ch w w0 e hl]; rw [hl] at h3; simp only at h3 ⊢; omega
  · rw [hl] at h3
    simp only at h3
    rcases hu : findUrl d.Body with _ | u
    · rw [pass_no_url env ch w w0 d hl hu]; simp only; omega
    · rw [pass_of_load env ch w w0 d u hl hu]
      split
      · simp only [World.emit]; omega
      · split_ifs
        · simp only [World.emit, World.tick, World.store]; omega
        · split
          · simp only [World.emit]; omega
          · split_ifs
            · simp only [World.emit]; omega
            · simp only [World.emit, World.tick, World.store]; omega

/-- What a successful call leaves behind: a non-empty segment list, and an
entry for the channel whose expiry is one hour after a clock reading `t` taken
during the call and whose body is a manifest that names a playlist. -/
theorem fetch_success (env : Env) (ch : Str) (r : Int) (w w1 : World) (segs : List Str)
    (hs : FetchTwitchStream env ch r w = (.ok segs, w1)) :
    segs ≠ [] ∧ ∃ t b u, (∃ k, w.ticks ≤ k ∧ k < w1.ticks ∧ t = env.now k) ∧
      w1.playlistCache ch = { Expiry := t + hour, Body := b } ∧ findUrl b = some u := by
  have key := fetch_induct env ch (fun r w y => ∀ segs w1, y = (.ok segs, w1) →
    segs ≠ [] ∧ ∃ t b u, (∃ k, w.ticks ≤ k ∧ k < w1.ticks ∧ t = env.now k) ∧
      w1.playlistCache ch = { Expiry := t + hour, Body := b } ∧ findUrl b = some u)
    ?_ ?_ ?_ r w segs w1 hs
  · exact key
  · intro r w _ segs w1 h
    simp at h
  · intro r w x w1 _ hp segs w2 h
    simp only [Prod.mk.injEq] at h
    obtain ⟨rfl, rfl⟩ := h
    obtain ⟨d, w0, u, buf, hl, hu, -, hseg, hlen, hw⟩ := pass_success env ch w w1 segs hp
    obtain ⟨ht, -⟩ := loadManifest_body_url env ch w w0 d hl
    refine ⟨?_, env.now w0.ticks, d.Body, u, ⟨w0.ticks, by omega, ?_, rfl⟩, ?_, hu⟩
    · rw [hseg]
      intro h0
      apply hlen
      have := congrArg List.length h0
      simpa [segmentsOf] using this
    · rw [hw]; simp only [World.emit, World.tick, World.store]; omega
    · rw [hw]; simp [World.store]
  · intro r w w1 y _ hp ih segs w2 h
    obtain ⟨hne, t, b, u, ⟨k, hk1, hk2, hk3⟩, hc, hu⟩ := ih segs w2 h
    have := pass_ticks env ch w
    rw [hp] at this
    simp only at this
    exact ⟨hne, t, b, u, ⟨k, by omega, hk2, hk3⟩, hc, hu⟩

/-- The segment list of a successful call is the parse of a playlist body that
was fetched with status 200. -/
theorem fetch_parsed (env : Env) (ch : Str) (r : Int) (w w1 : World) (segs : List Str)
    (hs : FetchTwitchStream env ch r w = (.ok segs, w1)) :
    ∃ tr u buf, env.get tr (.url u) = .resp statusOK (.ok buf) ∧ segs = segmentsOf buf := by
  refine fetch_induct env ch (fun _ _ y => ∀ segs w1, y = (.ok segs, w1) →
    ∃ tr u buf, env.get tr (.url u) = .resp statusOK (.ok buf) ∧ segs = segmentsOf buf)
    ?_ ?_ ?_ r w segs w1 hs
  · intro r w _ segs w1 h
    simp at h
  · intro r w x w1 _ hp segs w2 h
    simp only [Prod.mk.injEq] at h
    obtain ⟨rfl, rfl⟩ := h
    obtain ⟨d, w0, u, buf, -, -, hg, hseg, -, -⟩ := pass_success env ch w w1 segs hp
    exact ⟨_, u, buf, hg, hseg⟩
  · intro r w w1 y _ _ ih segs w2 h
    exact ih segs w2 h

/-- Claim C6: when the secondary playlist fetched by a call (with `retries` not
above the ceiling, the manifest body at hand and naming the playlist) answers
with status 200 and a body made of `n ≥ 1` live-segment entries, each a marker
line `#EXTINF:...live` followed by a non-empty URL line, the call succeeds and
returns exactly the `n` URL lines in body order: element `i` is the line after
the `i`-th marker, without the marker and without a newline. And whatever the
body, every element a successful call returns is a non-empty line of the
playlist body it fetched that stands right after a marker line: no other line
is ever returned. -/
theorem FetchTwitchStream_live_segments (env : Env) (ch : Str) (r : Int) (w w1 : World)
    (d : pCache) (u : Str) (trailing : Bool) (es : List (Str × Str))
    (hr : r ≤ 3) (hl : loadManifest env ch w = (.ok d, w1)) (hu : findUrl d.Body = some u)
    (hget : env.get w1.trace (.url u) = .resp statusOK (.ok (playlistOf trailing es)))
    (hne : es ≠ []) (hwf : ∀ e ∈ es, oneLine e.1 ∧ oneLine e.2 ∧ e.2 ≠ []) :
    (FetchTwitchStream env ch r w).1 = .ok (es.map Prod.snd) ∧
    (es.map Prod.snd).length = es.length ∧
    (∀ i : Nat, (es.map Prod.snd)[i]? = (es[i]?).map Prod.snd) ∧
    (∀ s ∈ es.map Prod.snd, oneLine s ∧ s ≠ []) ∧
    (∀ (r2 : Int) (w2 w3 : World) (segs : List Str),
      FetchTwitchStream env ch r2 w2 = (.ok segs, w3) →
      ∃ tr u2 buf, env.get tr (.url u2) = .resp statusOK (.ok buf) ∧ segs = segmentsOf buf ∧
        ∀ seg ∈ segs, ∃ pre x post,
          buf = pre ++ "#EXTINF:".toList ++ x ++ '\n' :: seg ++ post ∧
          oneLine x ∧ endsLive x = true ∧ oneLine seg ∧ seg ≠ [] ∧
          (post = [] ∨ ∃ post2, post = '\n' :: post2)) := by
  have hseg := segmentsOf_playlistOf trailing es hwf
  have hlen : (findAllSegments (playlistOf trailing es)).length ≠ 0 := by
    have h := congrArg List.length hseg
    simp only [segmentsOf, List.length_map] at h
    rw [h]
    exact fun h0 => hne (List.length_eq_zero.mp h0)
  have hp := pass_of_load env ch w w1 d u hl hu
  rw [hget] at hp
  simp only [ne_eq, not_true_eq_false, if_false, if_neg hlen, hseg] at hp
  rw [fetch_ret env ch r w _ _ hr hp]
  refine ⟨rfl, by simp, fun i => by simp, ?_, ?_⟩
  · intro s hs
    obtain ⟨e, he, rfl⟩ := List.mem_map.mp hs
    exact ⟨(hwf e he).2.1, (hwf e he).2.2⟩
  · intro r2 w2 w3 segs hs
    obtain ⟨tr, u2, buf, h1, h2⟩ := fetch_parsed env ch r2 w2 w3 segs hs
    exact ⟨tr, u2, buf, h1, h2, fun seg hseg => segmentsOf_sound buf seg (h2 ▸ hseg)⟩

/-- Witness of C6: a playlist of two entries, from the initial world. -/
theorem FetchTwitchStream_live_segments_witness :
    (FetchTwitchStream envLive "chan".toList 1 World.initial).1 =
      .ok ["https://s/1.ts".toList, "https://s/2.ts".toList] :=
  (FetchTwitchStream_live_segments envLive "chan".toList 1 World.initial
    ((World.initial.tick).emit (.httpGet (.manifest "chan".toList)))
    { Expiry := zeroTime, Body := "http://p/q.m3u8".toList } "http://p/q.m3u8".toList true
    [("2.000,".toList, "https://s/1.ts".toList), ("2.000,".toList, "https://s/2.ts".toList)]
    (by decide) rfl (by decide) rfl (by decide)
    (by
      intro e he
      simp only [List.mem_cons, List.mem_singleton, List.not_mem_nil, or_false] at he
      rcases he with rfl | rfl <;> refine ⟨?_, ?_, ?_⟩ <;> simp [oneLine])).1

/-- A pass over a fresh entry issues no manifest request: it requests the
playlist named by the cached body, or nothing when the body names none; and
unless the playlist answers with a status other than 200, it leaves the cache
as it was when it ends in the recursive call. -/
theorem pass_fresh (env : Env) (ch : Str) (w : World)
    (h : env.now w.ticks ≤ (w.playlistCache ch).Expiry) :
    (findUrl (w.playlistCache ch).Body = none → (pass env ch w).2.trace = w.trace) ∧
    (∀ u, findUrl (w.playlistCache ch).Body = some u →
      (pass env ch w).2.trace = w.trace ++ [.httpGet (.url u)]) ∧
    ((∀ tr u st body, env.get tr (.url u) = .resp st body → st = statusOK) →
      (pass env ch w).1 = .again → (pass env ch w).2.playlistCache = w.playlistCache) := by
  have hl := loadManifest_fresh env ch w h
  refine ⟨?_, ?_, ?_⟩
  · intro hu
    rw [pass_no_url env ch w _ _ hl hu]; rfl
  · intro u hu
    rw [pass_of_load env ch w _ _ u hl hu]
    split
    · rfl
    · split_ifs
      · rfl
      · split
        · rfl
        · split_ifs <;> rfl
  · intro hok
    rcases hu : findUrl (w.playlistCache ch).Body with _ | u
    · rw [pass_no_url env ch w _ _ hl hu]; intro h2; simp at h2
    · rw [pass_of_load env ch w _ _ u hl hu]
      rcases hg : env.get (w.tick).trace (.url u) with ⟨e, b⟩ | ⟨st, body⟩
      · intro h2; simp at h2
      · have hst := hok _ _ _ _ hg
        subst hst
        simp only [ne_eq, not_true_eq_false, if_false]
        rcases body with e | buf
        · intro h2; simp at h2
        · by_cases hlen : (findAllSegments buf).length = 0
          · simp [hlen, World.emit, World.tick]
          · simp [hlen]

/-- The first action of a call over a fresh entry whose body names a playlist:
the request of that playlist. -/
theorem fetch_fresh_first (env : Env) (ch : Str) (r : Int) (w : World) (u : Str) (hr : r ≤ 3)
    (h : env.now w.ticks ≤ (w.playlistCache ch).Expiry)
    (hu : findUrl (w.playlistCache ch).Body = some u) :
    ∃ rest, (FetchTwitchStream env ch r w).2.trace = w.trace ++ .httpGet (.url u) :: rest := by
  have ht := (pass_fresh env ch w h).2.1 u hu
  rcases hp : pass env ch w with ⟨x | _, w1⟩
  · rw [fetch_ret env ch r w w1 x hr hp]
    rw [hp] at ht
    exact ⟨[], ht⟩
  · rw [fetch_again env ch r w w1 hr hp]
    rw [hp] at ht
    simp only at ht
    obtain ⟨-, evs, he, -⟩ := fetch_frame env ch (r + 1) w1
    exact ⟨evs, by rw [he, ht]; simp⟩

/-- The first action of a call over a stale entry: the manifest request. -/
theorem fetch_stale_first (env : Env) (ch : Str) (r : Int) (w : World) (hr : r ≤ 3)
    (h : env.now w.ticks > (w.playlistCache ch).Expiry) :
    ∃ rest, (FetchTwitchStream env ch r w).2.trace =
      w.trace ++ .httpGet (.manifest ch) :: rest := by
  have hl := loadManifest_stale env ch w h
  have hlt : (loadManifest env ch w).2.trace = w.trace ++ [.httpGet (.manifest ch)] := by
    rw [hl]; rfl
  have hpass : ∃ rest, (pass env ch w).2.trace = w.trace ++ .httpGet (.manifest ch) :: rest := by
    rcases hl2 : loadManifest env ch w with ⟨e | d, w0⟩
    · rw [pass_load_error env ch w w0 e hl2]; rw [hl2] at hlt; exact ⟨[], hlt⟩
    · rw [hl2] at hlt
      simp only at hlt
      rcases hu : findUrl d.Body with _ | u
      · rw [pass_no_url env ch w w0 d hl2 hu]; exact ⟨[], hlt⟩
      · have key : ∀ w2 : World, w2.trace = w0.trace ++ [.httpGet (.url u)] →
            ∃ rest, w2.trace = w.trace ++ .httpGet (.manifest ch) :: rest :=
          fun w2 h2 => ⟨[.httpGet (.url u)], by rw [h2, hlt]; simp⟩
        rw [pass_of_load env ch w w0 d u hl2 hu]
        split
        · exact key _ rfl
        · split_ifs
          · exact key _ rfl
          · split
            · exact key _ rfl
            · split_ifs
              · exact key _ rfl
              · exact key _ rfl
  obtain ⟨rest, hrest⟩ := hpass
  rcases hp : pass env ch w with ⟨x | _, w1⟩
  · rw [fetch_ret env ch r w w1 x hr hp]
    rw [hp] at hrest
    exact ⟨rest, hrest⟩
  · rw [fetch_again env ch r w w1 hr hp]
    rw [hp] at hrest
    simp only at hrest
    obtain ⟨-, evs, he, -⟩ := fetch_frame env ch (r + 1) w1
    exact ⟨rest ++ evs, by rw [he, hrest]; simp⟩

/-- A call all of whose clock readings are within the window of the entry and
whose playlist requests are never answered with a status other than 200 issues
no manifest request. -/
theorem fetch_fresh_no_manifest (env : Env) (ch : Str) (T : Time)
    (hclock : ∀ k, env.now k ≤ T)
    (hok : ∀ tr u st body, env.get tr (.url u) = .resp st body → st = statusOK)
    (r : Int) (w : World) (hc : (w.playlistCache ch).Expiry = T) :
    manifestGets (FetchTwitchStream env ch r w).2.trace = manifestGets w.trace := by
  have hpass : ∀ w : World, (w.playlistCache ch).Expiry = T →
      manifestGets (pass env ch w).2.trace = manifestGets w.trace := by
    intro w hc
    have hf := pass_fresh env ch w (by rw [hc]; exact hclock _)
    rcases hu : findUrl (w.playlistCache ch).Body with _ | u
    · rw [hf.1 hu]
    · rw [hf.2.1 u hu, manifestGets_append]; simp [manifestGets]
  refine fetch_induct env ch (fun _ w y => (w.playlistCache ch).Expiry = T →
    manifestGets y.2.trace = manifestGets w.trace) ?_ ?_ ?_ r w hc
  · intro _ _ _ _; rfl
  · intro r w x w1 _ hp hc
    have := hpass w hc
    rw [hp] at this
    exact this
  · intro r w w1 y _ hp ih hc
    have h1 := hpass w hc
    have h2 := (pass_fresh env ch w (by rw [hc]; exact hclock _)).2.2 hok
    rw [hp] at h1 h2
    simp only at h1 h2
    rw [ih (by rw [h2 trivial]; exact hc), h1]

/-- Claim C5: a call that succeeds stores, for its channel, the manifest body
it used (which names a playlist) with an expiry one hour after a clock reading
`t` of that call. Any later call for the channel that finds this entry
untouched and reads a clock `t' ≤ t + 1 hour` issues no manifest request at its
cache check: it takes the stored body and its first request is the playlist
named by that body. If moreover none of its clock readings is after
`t + 1 hour` and none of its playlist requests is answered with a status other
than 200 (no forced expiry), the whole call issues no manifest request. -/
theorem FetchTwitchStream_cache_reuse (env : Env) (ch : Str) (r : Int) (w w1 : World)
    (segs : List Str) (hs : FetchTwitchStream env ch r w = (.ok segs, w1)) :
    ∃ t b u, (∃ k, w.ticks ≤ k ∧ k < w1.ticks ∧ t = env.now k) ∧
      w1.playlistCache ch = { Expiry := t + hour, Body := b } ∧ findUrl b = some u ∧
      ∀ (env2 : Env) (r2 : Int) (w2 : World), r2 ≤ 3 →
        w2.playlistCache ch = w1.playlistCache ch → env2.now w2.ticks ≤ t + hour →
        loadManifest env2 ch w2 = (.ok { Expiry := t + hour, Body := b }, w2.tick) ∧
        (∃ rest, (FetchTwitchStream env2 ch r2 w2).2.trace =
          w2.trace ++ .httpGet (.url u) :: rest) ∧
        ((∀ k, env2.now k ≤ t + hour) →
          (∀ tr u2 st body, env2.get tr (.url u2) = .resp st body → st = statusOK) →
          manifestGets (FetchTwitchStream env2 ch r2 w2).2.trace = manifestGets w2.trace) := by
  obtain ⟨-, t, b, u, hk, hc, hu⟩ := fetch_success env ch r w w1 segs hs
  refine ⟨t, b, u, hk, hc, hu, ?_⟩
  intro env2 r2 w2 hr2 hw2 ht
  have hc2 : w2.playlistCache ch = { Expiry := t + hour, Body := b } := hw2.trans hc
  have hfresh : env2.now w2.ticks ≤ (w2.playlistCache ch).Expiry := by rw [hc2]; exact ht
  refine ⟨?_, ?_, ?_⟩
  · rw [loadManifest_fresh env2 ch w2 hfresh, hc2]
  · exact fetch_fresh_first env2 ch r2 w2 u hr2 hfresh (by rw [hc2]; exact hu)
  · intro hclock hok
    exact fetch_fresh_no_manifest env2 ch (t + hour) hclock hok r2 w2 (by rw [hc2])

/-- Witness of C5: the successful call on a live channel from the initial world,
followed by a second call on the world it left: the second call issues no
manifest request. -/
theorem FetchTwitchStream_cache_reuse_witness :
    manifestGets (FetchTwitchStream envLive "chan".toList 1
        (pass envLive "chan".toList World.initial).2).2.trace =
      manifestGets (pass envLive "chan".toList World.initial).2.trace := by
  obtain ⟨t, b, u, ⟨k, -, -, hk⟩, -, -, H⟩ := FetchTwitchStream_cache_reuse envLive "chan".toList 1
    World.initial (pass envLive "chan".toList World.initial).2
    ["https://s/1.ts".toList, "https://s/2.ts".toList]
    (fetch_ret envLive "chan".toList 1 World.initial _ _ (by decide) (by rfl))
  have ht : t = 0 := hk
  subst ht
  exact (H envLive 1 _ (by decide) rfl (by decide)).2.2
    (fun _ => show (0 : Int) ≤ 0 + hour by decide)
    (fun tr u2 st body h => by
      have h2 : GetResult.resp 200 (.ok (playlistOf true
          [("2.000,".toList, "https://s/1.ts".toList),
           ("2.000,".toList, "https://s/2.ts".toList)])) = GetResult.resp st body := h
      injection h2 with h3 _
      exact h3.symm)

/-- Claim C8 fails as stated: at the very instant of the expiry (the clock reads
100 and the entry expires at 100, so the time is not before the expiry) the
call does not fetch the manifest; its only request is the playlist named by
the cached body. -/
theorem cache_reused_at_expiry_instant :
    envInstant.now worldCached.ticks = (worldCached.playlistCache "chan".toList).Expiry ∧
    (FetchTwitchStream envInstant "chan".toList 1 worldCached).2.trace =
      [.httpGet (.url "http://old/q.m3u8".toList)] ∧
    manifestGets (FetchTwitchStream envInstant "chan".toList 1 worldCached).2.trace = 0 := by
  have h : FetchTwitchStream envInstant "chan".toList 1 worldCached =
      (.ok ["https://s/1.ts".toList, "https://s/2.ts".toList],
        (pass envInstant "chan".toList worldCached).2) :=
    fetch_ret envInstant "chan".toList 1 worldCached _ _ (by decide) (by rfl)
  rw [h]
  exact ⟨by decide, by rfl, by rfl⟩

/-- Claim C8, amended: the cached manifest body is reused while the clock
reading of the attempt is not after the expiry of the entry, the instant of the
expiry included (no manifest request, the first request is the playlist named
by the cached body); when the clock reading is strictly after the expiry the
first action of the attempt is the manifest request. A playlist answer with a
status other than 200 stores the clock reading taken at that moment as the
expiry, so the attempt that follows fetches the manifest again when its own
clock reading is later than that one. -/
theorem FetchTwitchStream_cache_window (env : Env) (ch : Str) (r : Int) (w : World)
    (hr : r ≤ 3) :
    (env.now w.ticks ≤ (w.playlistCache ch).Expiry →
      loadManifest env ch w = (.ok (w.playlistCache ch), w.tick) ∧
      ∀ u, findUrl (w.playlistCache ch).Body = some u →
        ∃ rest, (FetchTwitchStream env ch r w).2.trace = w.trace ++ .httpGet (.url u) :: rest) ∧
    (env.now w.ticks > (w.playlistCache ch).Expiry →
      ∃ rest, (FetchTwitchStream env ch r w).2.trace =
        w.trace ++ .httpGet (.manifest ch) :: rest) ∧
    (∀ d w0 u st body, loadManifest env ch w = (.ok d, w0) → findUrl d.Body = some u →
      env.get w0.trace (.url u) = .resp st body → st ≠ statusOK →
      (pass env ch w).1 = .again ∧
      (pass env ch w).2.playlistCache ch = { Expiry := env.now (w.ticks + 1), Body := d.Body } ∧
      (pass env ch w).2.ticks = w.ticks + 2 ∧
      (r + 1 ≤ 3 → env.now (w.ticks + 2) > env.now (w.ticks + 1) →
        ∃ rest, (FetchTwitchStream env ch (r + 1) (pass env ch w).2).2.trace =
          (pass env ch w).2.trace ++ .httpGet (.manifest ch) :: rest)) := by
  refine ⟨?_, fetch_stale_first env ch r w hr, ?_⟩
  · intro h
    exact ⟨loadManifest_fresh env ch w h, fun u hu => fetch_fresh_first env ch r w u hr h hu⟩
  · intro d w0 u st body hl hu hg hst
    obtain ⟨ht, -⟩ := loadManifest_body_url env ch w w0 d hl
    have hp := pass_of_load env ch w w0 d u hl hu
    rw [hg] at hp
    simp only [if_pos hst] at hp
    have hcache : (pass env ch w).2.playlistCache ch =
        { Expiry := env.now (w.ticks + 1), Body := d.Body } := by
      rw [hp]; simp [World.store, ht]
    have hticks : (pass env ch w).2.ticks = w.ticks + 2 := by
      rw [hp]; simp [World.store, World.tick, World.emit, ht]
    refine ⟨by rw [hp], hcache, hticks, ?_⟩
    intro hr2 hlater
    exact fetch_stale_first env ch (r + 1) _ hr2 (by rw [hcache, hticks]; exact hlater)

/-- Witness of the amended C8: the attempt at the very instant of the expiry. -/
theorem FetchTwitchStream_cache_window_witness :
    loadManifest envInstant "chan".toList worldCached =
      (.ok (worldCached.playlistCache "chan".toList), worldCached.tick) :=
  ((FetchTwitchStream_cache_window envInstant "chan".toList 1 worldCached (by decide)).1
    (by decide)).1

/-! ### MakePreview -/

@[simp]
theorem trace_emit (w : World) (e : Event) : (w.emit e).trace = w.trace ++ [e] := rfl

@[simp]
theorem fs_emit (w : World) (e : Event) : (w.emit e).fs = w.fs := rfl

@[simp]
theorem trace_tick (w : World) : (w.tick).trace = w.trace := rfl

@[simp]
theorem fs_tick (w : World) : (w.tick).fs = w.fs := rfl

@[simp]
theorem trace_mkdirAll (env : Env) (w : World) (p : Str) :
    (w.mkdirAll env p).trace = w.trace ++ [.mkdirAll p] := by
  unfold World.mkdirAll
  simp only
  split_ifs <;> rfl

@[simp]
theorem trace_create (w : World) (p : Str) :
    (w.create p).trace = w.trace ++ [.create p] := by
  unfold World.create
  simp only
  split_ifs <;> rfl

@[simp]
theorem trace_remove (env : Env) (w : World) (p : Str) :
    (w.remove env p).trace = w.trace ++ [.remove p] := by
  unfold World.remove
  simp only
  split_ifs <;> rfl

theorem mem_fs_mkdirAll (env : Env) (w : World) (p q : Str) :
    q ∈ (w.mkdirAll env p).fs ↔ q ∈ w.fs ∨ (q = p ∧ env.mkdirOk p = true) := by
  unfold World.mkdirAll
  simp only [fs_emit]
  split_ifs with h
  · simp only [List.mem_append, List.mem_singleton]
    constructor
    · rintro (h1 | h1)
      · exact Or.inl h1
      · exact Or.inr ⟨h1, h.1⟩
    · rintro (h1 | ⟨h1, -⟩)
      · exact Or.inl h1
      · exact Or.inr h1
  · simp only [fs_emit]
    constructor
    · exact Or.inl
    · rintro (h1 | ⟨rfl, h2⟩)
      · exact h1
      · by_contra hq
        exact h ⟨h2, hq⟩

theorem mem_fs_create (w : World) (p q : Str) :
    q ∈ (w.create p).fs ↔ q ∈ w.fs ∨ q = p := by
  by_cases h : p ∈ w.fs
  · simp only [World.create, fs_emit, h, not_true_eq_false, if_false]
    constructor
    · exact Or.inl
    · rintro (h1 | rfl)
      · exact h1
      · exact h
  · simp [World.create, h]

theorem mem_fs_remove (env : Env) (w : World) (p q : Str) :
    q ∈ (w.remove env p).fs ↔ q ∈ w.fs ∧ (env.removeOk p = true → q ≠ p) := by
  unfold World.remove
  simp only [fs_emit]
  split_ifs with h
  · simp [h]
  · simp [h]

theorem tempDir_ne_tempVideoPath (ch : Str) : tempDirOf ch ≠ tempVideoPathOf ch := by
  intro h
  have := congrArg List.length h
  simp [tempVideoPathOf] at this

/-- The run-time index test of `segments[len(segments)-1]` and what follows it,
for a non-empty list: the scratch directory is made, then exactly one URL is
requested, the last of the list. -/
theorem previewBody_trace (env : Env) (ch : Str) (segs : List Str) (w : World) (last : Str)
    (hlast : segs.getLast? = some last) :
    (previewBody env ch segs w).1 ≠ .panic ∧
    ∃ rest, (previewBody env ch segs w).2.trace =
      w.trace ++ [.mkdirAll (tempDirOf ch), .httpGet (.url last)] ++ rest ∧
      urlGets rest = 0 ∧ manifestGets rest = 0 := by
  simp only [previewBody, hlast]
  split
  · exact ⟨by simp, [], by simp, rfl, rfl⟩
  · split
    · exact ⟨by simp, [.create (tempVideoPathOf ch)], by simp, rfl, rfl⟩
    · split
      · exact ⟨by simp, [.create (tempVideoPathOf ch), .remove (tempVideoPathOf ch)], by simp,
          rfl, rfl⟩
      · split
        · exact ⟨by simp, [.create (tempVideoPathOf ch), .remove (tempVideoPathOf ch)],
            by simp, rfl, rfl⟩
        · split
          · exact ⟨by simp, [.create (tempVideoPathOf ch),
              .exec (previewArgs (tempVideoPathOf ch) (previewsPath ++ "/".toList ++ ch
                ++ "/".toList ++ env.fmtInt (unixOf (env.now w.ticks)) ++ ".jpg".toList)) none,
              .remove (tempVideoPathOf ch)], by simp, rfl, rfl⟩
          · exact ⟨by simp, [.create (tempVideoPathOf ch),
              .exec (previewArgs (tempVideoPathOf ch) (previewsPath ++ "/".toList ++ ch
                ++ "/".toList ++ env.fmtInt (unixOf (env.now w.ticks)) ++ ".jpg".toList)) none,
              .remove (tempVideoPathOf ch)], by simp, rfl, rfl⟩

theorem MakePreview_of_fetch (env : Env) (ch : Str) (w w1 : World) (segs : List Str)
    (hs : FetchTwitchStream env ch 1 w = (.ok segs, w1)) :
    MakePreview env ch w = previewBody env ch segs w1 := by
  simp only [MakePreview, hs]

theorem MakePreview_of_error (env : Env) (ch : Str) (w w1 : World) (e : GoErr)
    (hs : FetchTwitchStream env ch 1 w = (.error e, w1)) :
    MakePreview env ch w = (.ret [] (some e), w1) := by
  simp only [MakePreview, hs]

/-- Claim C7: whenever `FetchTwitchStream` returns a nil error its segment list
is non-empty; so the index `len(segments)-1` of `MakePreview` is in bounds
(`MakePreview` never panics), and after a successful resolution `MakePreview`
requests exactly one URL, the last element of the resolved list. -/
theorem MakePreview_last_segment (env : Env) (ch : Str) (w : World) :
    (∀ (r : Int) (w0 w1 : World) (segs : List Str),
      FetchTwitchStream env ch r w0 = (.ok segs, w1) → segs ≠ []) ∧
    (MakePreview env ch w).1 ≠ .panic ∧
    (∀ (segs : List Str) (w1 : World), FetchTwitchStream env ch 1 w = (.ok segs, w1) →
      ∃ last, segs.getLast? = some last ∧
      ∃ rest, (MakePreview env ch w).2.trace =
        w1.trace ++ [.mkdirAll (tempDirOf ch), .httpGet (.url last)] ++ rest ∧
        urlGets rest = 0 ∧ manifestGets rest = 0) := by
  have hne : ∀ (r : Int) (w0 w1 : World) (segs : List Str),
      FetchTwitchStream env ch r w0 = (.ok segs, w1) → segs ≠ [] :=
    fun r w0 w1 segs h => (fetch_success env ch r w0 w1 segs h).1
  have hlast : ∀ segs : List Str, segs ≠ [] → ∃ last, segs.getLast? = some last := by
    intro segs h
    exact ⟨segs.getLast h, List.getLast?_eq_getLast segs h⟩
  refine ⟨hne, ?_, ?_⟩
  · rcases hs : FetchTwitchStream env ch 1 w with ⟨e | segs, w1⟩
    · rw [MakePreview_of_error env ch w w1 e hs]; simp
    · rw [MakePreview_of_fetch env ch w w1 segs hs]
      obtain ⟨last, hl⟩ := hlast segs (hne 1 w w1 segs hs)
      exact (previewBody_trace env ch segs w1 last hl).1
  · intro segs w1 hs
    obtain ⟨last, hl⟩ := hlast segs (hne 1 w w1 segs hs)
    rw [MakePreview_of_fetch env ch w w1 segs hs]
    exact ⟨last, hl, (previewBody_trace env ch segs w1 last hl).2⟩

/-- The successful resolution used by the concrete runs below. -/
theorem fetch_envLive :
    FetchTwitchStream envLive "chan".toList 1 World.initial =
      (.ok ["https://s/1.ts".toList, "https://s/2.ts".toList],
        (pass envLive "chan".toList World.initial).2) :=
  fetch_ret envLive "chan".toList 1 World.initial _ _ (by decide) (by rfl)

/-- Witness of C7: a live channel with two segments; the second one is fetched. -/
theorem MakePreview_last_segment_witness :
    ∃ rest, (MakePreview envLive "chan".toList World.initial).2.trace =
      (pass envLive "chan".toList World.initial).2.trace ++
        [.mkdirAll (tempDirOf "chan".toList), .httpGet (.url "https://s/2.ts".toList)] ++ rest := by
  obtain ⟨last, hl, rest, hr, -⟩ :=
    (MakePreview_last_segment envLive "chan".toList World.initial).2.2 _ _ fetch_envLive
  have : last = "https://s/2.ts".toList := by
    have h2 : ["https://s/1.ts".toList, "https://s/2.ts".toList].getLast? =
        some "https://s/2.ts".toList := by decide
    rw [h2] at hl
    exact (Option.some.inj hl).symm
  subst this
  exact ⟨rest, hr⟩

/-- The filesystem entries after the body of `MakePreview`: the scratch directory
stays when it could be made; the temporary file is gone when the removal
works. -/
theorem previewBody_fs (env : Env) (ch : Str) (segs : List Str) (w : World) (last : Str)
    (hlast : segs.getLast? = some last) :
    (tempVideoPathOf ch ∉ w.fs → env.removeOk (tempVideoPathOf ch) = true →
      tempVideoPathOf ch ∉ (previewBody env ch segs w).2.fs) ∧
    (env.mkdirOk (tempDirOf ch) = true → tempDirOf ch ∈ (previewBody env ch segs w).2.fs) := by
  have hne := tempDir_ne_tempVideoPath ch
  simp only [previewBody, hlast]
  split
  · simp only [fs_emit, mem_fs_mkdirAll, fs_tick]
    exact ⟨fun h1 _ h2 => h2.elim h1 (fun h3 => hne h3.1.symm), fun h => Or.inr ⟨trivial, h⟩⟩
  · split
    · simp only [fs_emit, mem_fs_mkdirAll, fs_tick]
      exact ⟨fun h1 _ h2 => h2.elim h1 (fun h3 => hne h3.1.symm), fun h => Or.inr ⟨trivial, h⟩⟩
    · have key : ∀ w2 : World, (∀ q, q ∈ w2.fs ↔ q ∈ ((((w.tick).mkdirAll env (tempDirOf ch)).emit
            (.httpGet (.url last))).create (tempVideoPathOf ch)).fs) →
          (tempVideoPathOf ch ∉ w.fs → env.removeOk (tempVideoPathOf ch) = true →
            tempVideoPathOf ch ∉ (w2.remove env (tempVideoPathOf ch)).fs) ∧
          (env.mkdirOk (tempDirOf ch) = true →
            tempDirOf ch ∈ (w2.remove env (tempVideoPathOf ch)).fs) := by
        intro w2 h2
        simp only [mem_fs_remove, h2, mem_fs_create, fs_emit, mem_fs_mkdirAll, fs_tick]
        refine ⟨fun _ hr h => h.2 hr rfl, fun h => ⟨Or.inl (Or.inr ⟨trivial, h⟩), fun _ => hne⟩⟩
      split
      · exact key _ (fun _ => Iff.rfl)
      · split
        · exact key _ (fun _ => Iff.rfl)
        · split
          · exact key _ (fun _ => Iff.rfl)
          · exact key _ (fun _ => Iff.rfl)

/-- Claim C9 fails as stated: on the exit path where everything succeeds (a live
channel, from the initial world, where the program has created nothing yet),
`MakePreview` returns its path and the scratch directory
`./previews/chan/temp` is among the entries it created and left behind. -/
theorem scratch_directory_left_behind :
    World.initial.fs = [] ∧
    (MakePreview envLive "chan".toList World.initial).1 = .ret "chan/0.jpg".toList none ∧
    "./previews/chan/temp".toList ∈ (MakePreview envLive "chan".toList World.initial).2.fs := by
  rw [MakePreview_of_fetch envLive "chan".toList World.initial _ _ fetch_envLive]
  exact ⟨rfl, by rfl, by decide⟩

/-- Claim C9, amended: on every exit path of `MakePreview` taken after segment
resolution succeeded, the temporary file `<previews>/<channel>/temp/temp.ts`
is not among the entries the program created when `MakePreview` returns
(provided the `os.Remove` of the deferred cleanup succeeds, on the paths that
created the file); the scratch directory `<previews>/<channel>/temp` is not
removed: it exists on every one of these exit paths once `os.MkdirAll`
succeeded, and no removal of it is ever issued. -/
theorem MakePreview_temp_cleanup (env : Env) (ch : Str) (w w1 : World) (segs : List Str)
    (hs : FetchTwitchStream env ch 1 w = (.ok segs, w1)) :
    (tempVideoPathOf ch ∉ w.fs → env.removeOk (tempVideoPathOf ch) = true →
      tempVideoPathOf ch ∉ (MakePreview env ch w).2.fs) ∧
    (env.mkdirOk (tempDirOf ch) = true → tempDirOf ch ∈ (MakePreview env ch w).2.fs) ∧
    (∃ evs, (MakePreview env ch w).2.trace = w1.trace ++ evs ∧
      Event.remove (tempDirOf ch) ∉ evs) := by
  have hfs : w1.fs = w.fs := by
    have := (fetch_frame env ch 1 w).1
    rw [hs] at this
    exact this
  obtain ⟨last, hl⟩ : ∃ last, segs.getLast? = some last :=
    ⟨segs.getLast (fetch_success env ch 1 w w1 segs hs).1, List.getLast?_eq_getLast _ _⟩
  rw [MakePreview_of_fetch env ch w w1 segs hs]
  have h := previewBody_fs env ch segs w1 last hl
  rw [hfs] at h
  refine ⟨h.1, h.2, ?_⟩
  have hne := tempDir_ne_tempVideoPath ch
  simp only [previewBody, hl]
  split
  · exact ⟨_, by simp only [trace_emit, trace_mkdirAll, trace_tick, List.append_assoc]; rfl,
      by simp⟩
  · split
    · exact ⟨_, by simp only [trace_emit, trace_mkdirAll, trace_tick, List.append_assoc]; rfl,
        by simp⟩
    · split
      · exact ⟨_, by simp only [trace_emit, trace_mkdirAll, trace_tick, trace_create,
          trace_remove, List.append_assoc]; rfl, by simp [hne]⟩
      · split
        · exact ⟨_, by simp only [trace_emit, trace_mkdirAll, trace_tick, trace_create,
            trace_remove, List.append_assoc]; rfl, by simp [hne]⟩
        · split
          · exact ⟨_, by simp only [trace_emit, trace_mkdirAll, trace_tick, trace_create,
              trace_remove, List.append_assoc]; rfl, by simp [hne]⟩
          · exact ⟨_, by simp only [trace_emit, trace_mkdirAll, trace_tick, trace_create,
              trace_remove, List.append_assoc]; rfl, by simp [hne]⟩

/-- Witness of the amended C9: the run on a live channel where every step succeeds. -/
theorem MakePreview_temp_cleanup_witness :
    "./previews/chan/temp/temp.ts".toList ∉
      (MakePreview envLive "chan".toList World.initial).2.fs :=
  (MakePreview_temp_cleanup envLive "chan".toList World.initial _ _ fetch_envLive).1
    (by decide) (by rfl)

/-- Claim C4: when a resolution has to fetch the manifest (the entry of the
channel is stale) and the manifest endpoint answers with status 404, then
`FetchTwitchStream` (with `retries` not above the ceiling) returns
`ErrStreamNotFound` and the world differs from the one before only by one
clock reading and one request, the manifest request: no playlist request, no
recursive call, the cache as it was. `MakeClip` (under any schedule) and
`MakePreview` return the empty path with that same error and the same world:
no segment download, no file or directory created, no external process. -/
theorem stream_not_found (env : Env) (ch : Str) (w : World) (body : Str)
    (hstale : env.now w.ticks > (w.playlistCache ch).Expiry)
    (h404 : env.get w.trace (.manifest ch) = .resp statusNotFound (.ok body)) :
    (∀ r : Int, r ≤ 3 → FetchTwitchStream env ch r w =
      (.error .streamNotFound, (w.tick).emit (.httpGet (.manifest ch)))) ∧
    (∀ sched, MakeClip env sched ch w =
      (.ret [] (some .streamNotFound), (w.tick).emit (.httpGet (.manifest ch)))) ∧
    MakePreview env ch w =
      (.ret [] (some .streamNotFound), (w.tick).emit (.httpGet (.manifest ch))) ∧
    ((w.tick).emit (.httpGet (.manifest ch))).playlistCache = w.playlistCache ∧
    ((w.tick).emit (.httpGet (.manifest ch))).fs = w.fs ∧
    ((w.tick).emit (.httpGet (.manifest ch))).trace = w.trace ++ [.httpGet (.manifest ch)] := by
  have hl : loadManifest env ch w =
      (.error .streamNotFound, (w.tick).emit (.httpGet (.manifest ch))) := by
    rw [loadManifest_stale env ch w hstale, h404]
    simp
  have hf : ∀ r : Int, r ≤ 3 → FetchTwitchStream env ch r w =
      (.error .streamNotFound, (w.tick).emit (.httpGet (.manifest ch))) :=
    fun r hr => fetch_ret env ch r w _ _ hr (pass_load_error env ch w _ _ hl)
  refine ⟨hf, ?_, ?_, rfl, rfl, rfl⟩
  · intro sched
    simp only [MakeClip, hf 1 (by decide)]
  · exact MakePreview_of_error env ch w _ _ (hf 1 (by decide))

/-- Witness of C4: the channel `offlinestreamer`, from the initial world. -/
theorem stream_not_found_witness :
    MakePreview envOffline "offlinestreamer".toList World.initial =
      (.ret [] (some .streamNotFound),
        (World.initial.tick).emit (.httpGet (.manifest "offlinestreamer".toList))) ∧
    MakeClip envOffline [] "offlinestreamer".toList World.initial =
      (.ret [] (some .streamNotFound),
        (World.initial.tick).emit (.httpGet (.manifest "offlinestreamer".toList))) :=
  ⟨(stream_not_found envOffline "offlinestreamer".toList World.initial "not found".toList
      (by decide) rfl).2.2.1,
   (stream_not_found envOffline "offlinestreamer".toList World.initial "not found".toList
      (by decide) rfl).2.1 []⟩

/-! ### MakeClip: the invariant of the goroutines -/

theorem inv_init (env : Env) (job : ClipJob) : Inv env job ClipState.init where
  chanSome := by simp [ClipState.init]
  futileMain := by simp [ClipState.init]
  leavingFutile := by simp [ClipState.init]
  futileQuiet := by simp [ClipState.init]
  crashedFutile := by simp [ClipState.init]
  doneSlot := by simp [ClipState.init]
  closedDone := by simp [ClipState.init]
  errorFails := by simp [ClipState.init]
  reachedAll := by simp [ClipState.init]
  rangingQuiet := by simp [ClipState.init]
  returnedOk := by simp [ClipState.init]
  slot := by simp [ClipState.init]
  execInput := by simp [ClipState.init]
  pipeExec := by simp [ClipState.init]

theorem flatMap_congr_range (n : Nat) (f g : Nat → Str) (h : ∀ i, i < n → f i = g i) :
    (List.range n).flatMap f = (List.range n).flatMap g := by
  have key : ∀ l : List Nat, (∀ i ∈ l, i < n) → l.flatMap f = l.flatMap g := by
    intro l
    induction l with
    | nil => intro _; rfl
    | cons a l ih =>
      intro hl
      simp only [List.flatMap_cons]
      rw [h a (hl a (by simp)), ih (fun i hi => hl i (by simp [hi]))]
  exact key _ (fun i hi => List.mem_range.mp hi)

/-- Every change a task that is not done can make keeps the invariant: it may
add actions outside the assembly, send the error of its own failed download,
advance itself, fill its own slot with its own body, and panic only under
`futile`. -/
theorem inv_task_update (env : Env) (job : ClipJob) (st st2 : ClipState) (i : Nat)
    (h : Inv env job st) (hi : i < job.segments.length) (hpc : st.pcs i ≠ .done)
    (hev : ∃ evs, st2.events = st.events ++ evs ∧ ∀ ev ∈ evs, Event.isAssembly ev = false)
    (hmain : st2.main = st.main) (hclosed : st2.closed = st.closed)
    (hfut : st2.futile = st.futile)
    (hchan : st2.chan = st.chan ∨
      ∃ e, st2.chan = st.chan ++ [some e] ∧ (outcomeOf env job i).body? = none)
    (hcr : st2.crashed = st.crashed ∨ st.futile = true)
    (hpcs : ∀ j, j ≠ i → st2.pcs j = st.pcs j)
    (hbuf : ∀ j, j ≠ i → st2.buffer j = st.buffer j)
    (hbi : st2.buffer i = st.buffer i ∨ st2.buffer i = (outcomeOf env job i).body?)
    (hdone : st2.pcs i = .done →
      (∃ b, (outcomeOf env job i).body? = some b ∧ st2.buffer i = some b) ∨
        (st2.chan ≠ [] ∨ st2.futile = true)) :
    Inv env job st2 := by
  obtain ⟨evs, hevs, hquiet⟩ := hev
  have hnc : st.closed ≠ true := fun hc => hpc (h.closedDone hc i hi)
  have hnr : ¬ ∃ ev ∈ st2.events, Event.isAssembly ev = true := by
    rintro ⟨ev, hm, ha⟩
    rw [hevs] at hm
    rcases List.mem_append.mp hm with h1 | h1
    · exact hnc (h.reachedAll ⟨ev, h1, ha⟩).2.2
    · rw [hquiet ev h1] at ha; exact absurd ha (by decide)
  have hquiet2 : ∀ ev ∈ st2.events, Event.isAssembly ev = false := by
    intro ev hm
    by_contra hne
    exact hnr ⟨ev, hm, by simpa using hne⟩
  have hchanNe : st.chan ≠ [] → st2.chan ≠ [] := by
    intro hne
    rcases hchan with h1 | ⟨e, h1, -⟩
    · rw [h1]; exact hne
    · rw [h1]; simp
  refine
    { chanSome := ?_, futileMain := ?_, leavingFutile := ?_, futileQuiet := ?_,
      crashedFutile := ?_, doneSlot := ?_,
      closedDone := ?_, errorFails := ?_, reachedAll := ?_, rangingQuiet := ?_,
      returnedOk := ?_, slot := ?_, execInput := ?_, pipeExec := ?_ }
  · intro x hx
    rcases hchan with h1 | ⟨e, h1, -⟩
    · rw [h1] at hx; exact h.chanSome x hx
    · rw [h1] at hx
      rcases List.mem_append.mp hx with h2 | h2
      · exact h.chanSome x h2
      · exact ⟨e, by simpa using h2⟩
  · intro hf
    rw [hmain]
    exact h.futileMain (hfut ▸ hf)
  · intro e he
    rw [hfut]
    exact h.leavingFutile e (hmain ▸ he)
  · intro _
    exact hquiet2
  · intro hc
    rw [hfut]
    rcases hcr with h1 | h1
    · exact h.crashedFutile (h1 ▸ hc)
    · exact h1
  · intro j hj hd
    by_cases hji : j = i
    · subst hji; exact hdone hd
    · rw [hpcs j hji] at hd
      rw [hbuf j hji, hfut]
      rcases h.doneSlot j hj hd with h1 | h1 | h1
      · exact Or.inl h1
      · exact Or.inr (Or.inl (hchanNe h1))
      · exact Or.inr (Or.inr h1)
  · intro hc
    exact absurd (hclosed ▸ hc) hnc
  · intro he
    rcases hchan with h1 | ⟨e, -, h2⟩
    · rw [h1, hfut] at he; exact h.errorFails he
    · exact ⟨i, hi, h2⟩
  · intro hr
    exact absurd hr hnr
  · intro _
    exact hquiet2
  · intro p err hm
    rw [hmain] at hm
    rcases h.returnedOk p err hm with ⟨ev, h1, h2⟩ | h3
    · exact Or.inl ⟨ev, by rw [hevs]; exact List.mem_append_left _ h1, h2⟩
    · rw [hfut]; exact Or.inr h3
  · intro j
    by_cases hji : j = i
    · subst hji
      rcases hbi with h1 | h1
      · rw [h1]; exact h.slot j
      · exact Or.inr h1
    · rw [hbuf j hji]; exact h.slot j
  · intro args inp hm
    have := hquiet2 _ hm
    simp [Event.isAssembly] at this
  · intro p err _ hr _
    exact absurd hr hnr

/-- A step of a task keeps the invariant. -/
theorem inv_taskStep (env : Env) (job : ClipJob) (st : ClipState) (i : Nat)
    (h : Inv env job st) (hi : i < job.segments.length) :
    Inv env job (taskStep env job st i) := by
  rcases hpc : st.pcs i with _ | _ | _
  · -- lines 125 to 131
    have hnd : st.pcs i ≠ .done := by rw [hpc]; decide
    rcases ho : outcomeOf env job i with ⟨e, hasRes⟩ | ⟨status, body⟩
    · by_cases hf : st.futile = true
      · cases hasRes
        · refine inv_task_update env job st _ i h hi hnd ⟨[.httpGet (.url (job.segments.getD i []))], ?_, ?_⟩ ?_ ?_ ?_ ?_ ?_ ?_ ?_ ?_ ?_
          all_goals simp [taskStep, hpc, ho, hf, Event.isAssembly]
        · refine inv_task_update env job st _ i h hi hnd ⟨[.httpGet (.url (job.segments.getD i []))], ?_, ?_⟩ ?_ ?_ ?_ ?_ ?_ ?_ ?_ ?_ ?_
          all_goals simp [taskStep, hpc, ho, hf, Event.isAssembly]
          · intro j hj; exact Function.update_noteq hj _ _
      · refine inv_task_update env job st _ i h hi hnd ⟨[.httpGet (.url (job.segments.getD i []))], ?_, ?_⟩ ?_ ?_ ?_ ?_ ?_ ?_ ?_ ?_ ?_
        all_goals simp [taskStep, hpc, ho, hf, Event.isAssembly, GetResult.body?]
        · intro j hj; exact Function.update_noteq hj _ _
    · refine inv_task_update env job st _ i h hi hnd ⟨[.httpGet (.url (job.segments.getD i []))], ?_, ?_⟩ ?_ ?_ ?_ ?_ ?_ ?_ ?_ ?_ ?_
      all_goals simp [taskStep, hpc, ho, Event.isAssembly]
      · intro j hj; exact Function.update_noteq hj _ _
  · -- lines 132 to 139
    have hnd : st.pcs i ≠ .done := by rw [hpc]; decide
    by_cases hf : st.futile = true
    · refine inv_task_update env job st _ i h hi hnd ⟨[], ?_, ?_⟩ ?_ ?_ ?_ ?_ ?_ ?_ ?_ ?_ ?_
      all_goals simp [taskStep, hpc, hf]
      · intro j hj; exact Function.update_noteq hj _ _
    · rcases ho : outcomeOf env job i with ⟨e, hasRes⟩ | ⟨status, _ | buf⟩
      · refine inv_task_update env job st _ i h hi hnd ⟨[], ?_, ?_⟩ ?_ ?_ ?_ ?_ ?_ ?_ ?_ ?_ ?_
        all_goals simp [taskStep, hpc, ho, hf, GetResult.body?]
        · intro j hj; exact Function.update_noteq hj _ _
      · refine inv_task_update env job st _ i h hi hnd ⟨[], ?_, ?_⟩ ?_ ?_ ?_ ?_ ?_ ?_ ?_ ?_ ?_
        all_goals simp [taskStep, hpc, ho, hf, GetResult.body?]
        · intro j hj; exact Function.update_noteq hj _ _
      · refine inv_task_update env job st _ i h hi hnd ⟨[], ?_, ?_⟩ ?_ ?_ ?_ ?_ ?_ ?_ ?_ ?_ ?_
        all_goals simp [taskStep, hpc, ho, hf, GetResult.body?]
        · intro j hj; exact Function.update_noteq hj _ _
        · intro j hj; exact Function.update_noteq hj _ _
  · simp only [taskStep, hpc]
    exact h

/-- A step of the closing goroutine keeps the invariant. -/
theorem inv_closerStep (env : Env) (job : ClipJob) (st : ClipState) (h : Inv env job st) :
    Inv env job (closerStep job st) := by
  unfold closerStep
  split_ifs with hall
  · have hd : ∀ i, i < job.segments.length → st.pcs i = .done := by
      intro i hi
      have := List.all_eq_true.mp hall i (List.mem_range.mpr hi)
      simpa using this
    exact
      { chanSome := h.chanSome, futileMain := h.futileMain,
        leavingFutile := h.leavingFutile, futileQuiet := h.futileQuiet,
        crashedFutile := h.crashedFutile, doneSlot := h.doneSlot,
        closedDone := fun _ => hd, errorFails := h.errorFails,
        reachedAll := fun hr => ⟨(h.reachedAll hr).1, (h.reachedAll hr).2.1, rfl⟩,
        rangingQuiet := h.rangingQuiet, returnedOk := h.returnedOk, slot := h.slot,
        execInput := h.execInput, pipeExec := h.pipeExec }
  · exact h

/-- When the loop over the channel ends, the slots hold the bodies. -/
theorem input_at_close (env : Env) (job : ClipJob) (st : ClipState) (h : Inv env job st)
    (hchan : st.chan = []) (hf : st.futile = false) (hcl : st.closed = true) :
    st.input job.segments.length = expectedInput env job ∧
    ∀ i, i < job.segments.length → ∃ b, (outcomeOf env job i).body? = some b ∧
      st.buffer i = some b := by
  have hall : ∀ i, i < job.segments.length → ∃ b, (outcomeOf env job i).body? = some b ∧
      st.buffer i = some b := by
    intro i hi
    rcases h.doneSlot i hi (h.closedDone hcl i hi) with h1 | h1 | h1
    · exact h1
    · exact absurd hchan h1
    · rw [hf] at h1; exact absurd h1 (by decide)
  refine ⟨?_, hall⟩
  unfold ClipState.input expectedInput
  apply flatMap_congr_range
  intro i hi
  obtain ⟨b, h1, h2⟩ := hall i hi
  rw [h1, h2]

/-- The three ways the part of `MakeClip` after the loop can end. -/
theorem assemble_eq (env : Env) (job : ClipJob) (st : ClipState) :
    assemble env job st =
      match env.pipeErr with
      | some e =>
        { st with events := st.events ++ [.mkdirAll (env.pathDir (clipPathOf env job))],
                  dirs := if env.mkdirOk (env.pathDir (clipPathOf env job)) then
                    st.dirs ++ [env.pathDir (clipPathOf env job)] else st.dirs,
                  main := .returned [] (some e) }
      | none =>
        match env.runErr (clipArgs env job) (some (st.input job.segments.length)) with
        | some e =>
          { st with events := st.events ++ [.mkdirAll (env.pathDir (clipPathOf env job))] ++
                      [.exec (clipArgs env job) (some (st.input job.segments.length))],
                    dirs := if env.mkdirOk (env.pathDir (clipPathOf env job)) then
                      st.dirs ++ [env.pathDir (clipPathOf env job)] else st.dirs,
                    main := .returned [] (some e) }
        | none =>
          { st with events := st.events ++ [.mkdirAll (env.pathDir (clipPathOf env job))] ++
                      [.exec (clipArgs env job) (some (st.input job.segments.length))],
                    dirs := if env.mkdirOk (env.pathDir (clipPathOf env job)) then
                      st.dirs ++ [env.pathDir (clipPathOf env job)] else st.dirs,
                    main := .returned
                      (job.channelName ++ "/".toList ++ env.fmtInt job.clipID ++ ".mp4".toList)
                      none } := by
  rfl

/-- The part of `MakeClip` after the loop keeps the invariant. -/
theorem inv_assemble (env : Env) (job : ClipJob) (st : ClipState) (h : Inv env job st)
    (hm : st.main = .ranging) (hchan : st.chan = []) (hcl : st.closed = true) :
    Inv env job (assemble env job st) := by
  have hf : st.futile = false := by
    by_contra hne
    obtain ⟨e, he | he⟩ := h.futileMain (by simpa using hne)
    · rw [hm] at he
      exact absurd he (by simp)
    · rw [hm] at he
      exact absurd he (by simp)
  have hq := h.rangingQuiet hm
  have hin := (input_at_close env job st h hchan hf hcl).1
  have hcr : st.crashed = true → st.futile = true := h.crashedFutile
  have base : ∀ st2 : ClipState, st2.chan = st.chan → st2.futile = st.futile →
      st2.closed = st.closed → st2.crashed = st.crashed → st2.pcs = st.pcs →
      st2.buffer = st.buffer → (∃ p err, st2.main = .returned p err) →
      Event.mkdirAll (env.pathDir (clipPathOf env job)) ∈ st2.events →
      (∀ args inp, Event.exec args inp ∈ st2.events →
        args = clipArgs env job ∧ inp = some (expectedInput env job)) →
      (env.pipeErr = none →
        Event.exec (clipArgs env job) (some (expectedInput env job)) ∈ st2.events) →
      Inv env job st2 := by
    intro st2 h1 h2 h3 h4 h5 h6 h7 h8 h9 h10
    have hreach : ∃ ev ∈ st2.events, Event.isAssembly ev = true := ⟨_, h8, rfl⟩
    obtain ⟨p, err, hret⟩ := h7
    exact
      { chanSome := by rw [h1]; exact h.chanSome
        futileMain := by rw [h2, hf]; intro hx; exact absurd hx (by decide)
        leavingFutile := by rw [hret]; intro e hx; exact absurd hx (by simp)
        futileQuiet := by rw [h2, hf]; intro hx; exact absurd hx (by decide)
        crashedFutile := by rw [h4, h2]; exact hcr
        doneSlot := by rw [h5, h6, h1, h2]; exact h.doneSlot
        closedDone := by rw [h3, h5]; exact h.closedDone
        errorFails := by rw [h1, h2]; exact h.errorFails
        reachedAll := fun _ => ⟨by rw [h1]; exact hchan, by rw [h2]; exact hf,
          by rw [h3]; exact hcl⟩
        rangingQuiet := by rw [hret]; intro hx; exact absurd hx (by simp)
        returnedOk := fun _ _ _ => Or.inl hreach
        slot := by rw [h6]; exact h.slot
        execInput := h9
        pipeExec := fun _ _ _ _ hp => h10 hp }
  have noExec : ∀ args inp, Event.exec args inp ∉ st.events := by
    intro args inp hmem
    have := hq _ hmem
    simp [Event.isAssembly] at this
  rw [assemble_eq]
  rcases hp : env.pipeErr with _ | e
  · simp only
    rcases hrun : env.runErr (clipArgs env job) (some (st.input job.segments.length)) with _ | e
    · refine base _ rfl rfl rfl rfl rfl rfl ⟨_, _, rfl⟩ (by simp) ?_ ?_
      · intro args inp hmem
        simp only [List.mem_append, List.mem_singleton, Event.exec.injEq] at hmem
        rcases hmem with (h1 | h1) | ⟨rfl, rfl⟩
        · exact absurd h1 (noExec args inp)
        · exact absurd h1 (by simp)
        · exact ⟨rfl, by rw [hin]⟩
      · intro _; simp [hin]
    · refine base _ rfl rfl rfl rfl rfl rfl ⟨_, _, rfl⟩ (by simp) ?_ ?_
      · intro args inp hmem
        simp only [List.mem_append, List.mem_singleton, Event.exec.injEq] at hmem
        rcases hmem with (h1 | h1) | ⟨rfl, rfl⟩
        · exact absurd h1 (noExec args inp)
        · exact absurd h1 (by simp)
        · exact ⟨rfl, by rw [hin]⟩
      · intro _; simp [hin]
  · refine base _ rfl rfl rfl rfl rfl rfl ⟨_, _, rfl⟩ (by simp) ?_ ?_
    · intro args inp hmem
      simp only [List.mem_append, List.mem_singleton] at hmem
      rcases hmem with h1 | h1
      · exact absurd h1 (noExec args inp)
      · exact absurd h1 (by simp)
    · intro h0; rw [hp] at h0; exact absurd h0 (by simp)

/-- A step of `MakeClip` itself keeps the invariant. -/
theorem inv_mainStep (env : Env) (job : ClipJob) (st : ClipState) (h : Inv env job st) :
    Inv env job (mainStep env job st) := by
  rcases hm : st.main with _ | e | ⟨p, err⟩
  · rcases hc : st.chan with _ | ⟨x, rest⟩
    · by_cases hcl : st.closed = true
      · have : mainStep env job st = assemble env job st := by
          simp [mainStep, hm, hc, hcl]
        rw [this]
        exact inv_assemble env job st h hm hc hcl
      · have : mainStep env job st = st := by
          simp [mainStep, hm, hc, hcl]
        rw [this]
        exact h
    · obtain ⟨e, rfl⟩ := h.chanSome x (by rw [hc]; simp)
      have hq := h.rangingQuiet hm
      have hnr : ¬ ∃ ev ∈ st.events, Event.isAssembly ev = true := by
        rintro ⟨ev, h1, h2⟩
        rw [hq ev h1] at h2
        exact absurd h2 (by decide)
      have : mainStep env job st =
          { st with chan := rest, futile := true, main := .leaving e } := by
        simp [mainStep, hm, hc]
      rw [this]
      exact
        { chanSome := fun x hx => h.chanSome x (by rw [hc]; exact List.mem_cons_of_mem _ hx)
          futileMain := fun _ => ⟨e, Or.inl rfl⟩
          leavingFutile := fun _ _ => rfl
          futileQuiet := fun _ => hq
          crashedFutile := fun _ => rfl
          doneSlot := fun _ _ _ => Or.inr (Or.inr rfl)
          closedDone := h.closedDone
          errorFails := fun _ => h.errorFails (Or.inl (by rw [hc]; simp))
          reachedAll := fun hr => absurd hr hnr
          rangingQuiet := fun _ => hq
          returnedOk := fun p err hp => by simp at hp
          slot := h.slot
          execInput := h.execInput
          pipeExec := fun _ _ _ hr _ => absurd hr hnr }
  · have hf := h.leavingFutile e hm
    have hq := h.futileQuiet hf
    have hnr : ¬ ∃ ev ∈ st.events, Event.isAssembly ev = true := by
      rintro ⟨ev, h1, h2⟩
      rw [hq ev h1] at h2
      exact absurd h2 (by decide)
    have : mainStep env job st = { st with main := .returned [] (some e) } := by
      simp [mainStep, hm]
    rw [this]
    exact
      { chanSome := h.chanSome
        futileMain := fun _ => ⟨e, Or.inr rfl⟩
        leavingFutile := fun _ hx => by simp at hx
        futileQuiet := h.futileQuiet
        crashedFutile := h.crashedFutile
        doneSlot := h.doneSlot
        closedDone := h.closedDone
        errorFails := h.errorFails
        reachedAll := fun hr => absurd hr hnr
        rangingQuiet := fun _ => hq
        returnedOk := fun p err hp => by
          simp only [MainPc.returned.injEq] at hp
          exact Or.inr ⟨hp.1.symm, ⟨e, hp.2.symm⟩, hf⟩
        slot := h.slot
        execInput := h.execInput
        pipeExec := fun _ _ _ hr _ => absurd hr hnr }
  · have : mainStep env job st = st := by
      simp [mainStep, hm]
    rw [this]
    exact h

/-- Every scheduled step keeps the invariant. -/
theorem inv_step (env : Env) (job : ClipJob) (st : ClipState) (a : Action)
    (h : Inv env job st) : Inv env job (step env job st a) := by
  unfold step
  split_ifs with hc
  · exact h
  · cases a with
    | task i =>
      simp only
      split_ifs with hi
      · exact inv_taskStep env job st i h hi
      · exact h
    | closer => exact inv_closerStep env job st h
    | main => exact inv_mainStep env job st h

/-- The invariant holds after every schedule. -/
theorem inv_run (env : Env) (job : ClipJob) (sched : List Action) (st : ClipState)
    (h : Inv env job st) : Inv env job (run env job st sched) := by
  induction sched generalizing st with
  | nil => exact h
  | cons a as ih => exact ih _ (inv_step env job st a h)

theorem run_append (env : Env) (job : ClipJob) (st : ClipState) (s1 s2 : List Action) :
    run env job st (s1 ++ s2) = run env job (run env job st s1) s2 := by
  simp [run, List.foldl_append]

/-! ### MakeClip: progress, the byte stream, failed downloads -/

theorem step_crashed (env : Env) (job : ClipJob) (st : ClipState) (a : Action)
    (h : st.crashed = true) : step env job st a = st := by
  simp [step, h]

theorem run_crashed (env : Env) (job : ClipJob) (sched : List Action) (st : ClipState)
    (h : st.crashed = true) : run env job st sched = st := by
  induction sched with
  | nil => rfl
  | cons a as ih =>
    show run env job (step env job st a) as = st
    rw [step_crashed env job st a h]
    exact ih

theorem taskStep_rank (env : Env) (job : ClipJob) (st : ClipState) (i j : Nat) :
    (st.pcs j).rank ≤ ((taskStep env job st i).pcs j).rank := by
  by_cases hji : j = i
  · subst hji
    rcases hpc : st.pcs j with _ | _ | _
    · simp [TaskPc.rank]
    · unfold taskStep
      simp only [hpc]
      split_ifs
      · split <;> simp [TaskPc.rank]
      · simp [TaskPc.rank]
    · simp [taskStep, hpc]
  · unfold taskStep
    split
    · simp only
      split
      · split_ifs <;> simp [Function.update_noteq hji]
      · simp [Function.update_noteq hji]
    · split_ifs
      · split <;> simp [Function.update_noteq hji]
      · simp [Function.update_noteq hji]
    · exact le_refl _

theorem assemble_pcs (env : Env) (job : ClipJob) (st : ClipState) :
    (assemble env job st).pcs = st.pcs ∧ (assemble env job st).crashed = st.crashed ∧
    ∃ p err, (assemble env job st).main = .returned p err := by
  rw [assemble_eq]
  split
  · exact ⟨rfl, rfl, _, _, rfl⟩
  · split
    · exact ⟨rfl, rfl, _, _, rfl⟩
    · exact ⟨rfl, rfl, _, _, rfl⟩

theorem mainStep_pcs (env : Env) (job : ClipJob) (st : ClipState) :
    (mainStep env job st).pcs = st.pcs ∧ (mainStep env job st).crashed = st.crashed := by
  unfold mainStep
  split
  · exact ⟨rfl, rfl⟩
  · exact ⟨rfl, rfl⟩
  · split
    · exact ⟨rfl, rfl⟩
    · exact ⟨rfl, rfl⟩
    · split_ifs
      · exact ⟨(assemble_pcs env job st).1, (assemble_pcs env job st).2.1⟩
      · exact ⟨rfl, rfl⟩

theorem closerStep_pcs (job : ClipJob) (st : ClipState) :
    (closerStep job st).pcs = st.pcs ∧ (closerStep job st).crashed = st.crashed ∧
    (closerStep job st).main = st.main := by
  unfold closerStep
  split_ifs <;> exact ⟨rfl, rfl, rfl⟩

/-- No step takes a task back. -/
theorem step_rank (env : Env) (job : ClipJob) (st : ClipState) (a : Action) (j : Nat) :
    (st.pcs j).rank ≤ ((step env job st a).pcs j).rank := by
  unfold step
  split_ifs
  · exact le_refl _
  · cases a with
    | task i =>
      simp only
      split_ifs
      · exact taskStep_rank env job st i j
      · exact le_refl _
    | closer => simp only; rw [(closerStep_pcs job st).1]
    | main => simp only; rw [(mainStep_pcs env job st).1]

theorem run_rank (env : Env) (job : ClipJob) (sched : List Action) (st : ClipState) (j : Nat) :
    (st.pcs j).rank ≤ ((run env job st sched).pcs j).rank := by
  induction sched generalizing st with
  | nil => exact le_refl _
  | cons a as ih => exact le_trans (step_rank env job st a j) (ih _)

/-- A scheduled task that is not done advances, unless it panics. -/
theorem step_task_progress (env : Env) (job : ClipJob) (st : ClipState) (i : Nat)
    (hi : i < job.segments.length) :
    (step env job st (.task i)).crashed = true ∨
    min 2 ((st.pcs i).rank + 1) ≤ ((step env job st (.task i)).pcs i).rank := by
  by_cases hc : st.crashed = true
  · left; rw [step_crashed env job st _ hc]; exact hc
  · have hs : step env job st (.task i) = taskStep env job st i := by
      simp [step, hc, hi]
    rw [hs]
    rcases hpc : st.pcs i with _ | _ | _
    · unfold taskStep
      simp only [hpc]
      split
      · split_ifs
        · right; simp [TaskPc.rank]
        · right; simp [TaskPc.rank]
        · left; rfl
      · right; simp [TaskPc.rank]
    · right
      unfold taskStep
      simp only [hpc]
      split_ifs
      · split <;> simp [TaskPc.rank]
      · simp [TaskPc.rank]
    · right
      simp [taskStep, hpc, TaskPc.rank]

theorem run_task_progress (env : Env) (job : ClipJob) (sched : List Action) (st : ClipState)
    (i : Nat) (hi : i < job.segments.length) (hmem : Action.task i ∈ sched) :
    (run env job st sched).crashed = true ∨
    min 2 ((st.pcs i).rank + 1) ≤ ((run env job st sched).pcs i).rank := by
  induction sched generalizing st with
  | nil => simp at hmem
  | cons a as ih =>
    show (run env job (step env job st a) as).crashed = true ∨
      min 2 ((st.pcs i).rank + 1) ≤ ((run env job (step env job st a) as).pcs i).rank
    by_cases ha : a = .task i
    · subst ha
      rcases step_task_progress env job st i hi with h1 | h1
      · left; rw [run_crashed env job as _ h1]; exact h1
      · right; exact le_trans h1 (run_rank env job as _ i)
    · have hm : Action.task i ∈ as := by
        rcases List.mem_cons.mp hmem with h1 | h1
        · exact absurd h1.symm ha
        · exact h1
      rcases ih (step env job st a) hm with h1 | h1
      · exact Or.inl h1
      · right
        have := step_rank env job st a i
        omega

theorem rank_done (pc : TaskPc) (h : 2 ≤ pc.rank) : pc = .done := by
  cases pc <;> simp [TaskPc.rank] at h ⊢

/-- After every task was scheduled twice, every task is done, unless one
panicked. -/
theorem tasks_finish (env : Env) (job : ClipJob) (st : ClipState) :
    (run env job st ((List.range job.segments.length).map Action.task ++
      (List.range job.segments.length).map Action.task)).crashed = true ∨
    ∀ i, i < job.segments.length →
      (run env job st ((List.range job.segments.length).map Action.task ++
        (List.range job.segments.length).map Action.task)).pcs i = .done := by
  rw [run_append]
  by_cases hc : (run env job (run env job st ((List.range job.segments.length).map Action.task))
      ((List.range job.segments.length).map Action.task)).crashed = true
  · exact Or.inl hc
  · right
    intro i hi
    have hmem : Action.task i ∈ (List.range job.segments.length).map Action.task :=
      List.mem_map.mpr ⟨i, List.mem_range.mpr hi, rfl⟩
    have h1 := run_task_progress env job _ st i hi hmem
    have h2 := run_task_progress env job _
      (run env job st ((List.range job.segments.length).map Action.task)) i hi hmem
    rcases h2 with h2 | h2
    · exact absurd h2 hc
    · rcases h1 with h1 | h1
      · rw [run_crashed env job _ _ h1] at hc
        exact absurd h1 hc
      · apply rank_done
        omega

/-- From every reachable state, the schedule `finish` takes `MakeClip` out of its
loop: it has returned, or it stands between lines 150 and 151. -/
theorem finish_returns (env : Env) (job : ClipJob) (st : ClipState) (h : Inv env job st) :
    (∃ p err, (run env job st (finish job.segments.length)).main = .returned p err) ∨
    ∃ e, (run env job st (finish job.segments.length)).main = .leaving e := by
  unfold finish
  rw [run_append]
  generalize hst1 : run env job st ((List.range job.segments.length).map Action.task ++
      (List.range job.segments.length).map Action.task) = st1
  have hinv1 : Inv env job st1 := hst1 ▸ inv_run env job _ st h
  have hfin := tasks_finish env job st
  rw [hst1] at hfin
  show (∃ p err, (step env job (step env job st1 .closer) .main).main = .returned p err) ∨
    ∃ e, (step env job (step env job st1 .closer) .main).main = .leaving e
  by_cases hc : st1.crashed = true
  · rw [step_crashed env job st1 _ hc, step_crashed env job st1 _ hc]
    obtain ⟨e, he | he⟩ := hinv1.futileMain (hinv1.crashedFutile hc)
    · exact Or.inr ⟨e, he⟩
    · exact Or.inl ⟨_, _, he⟩
  · have hdone : ∀ i, i < job.segments.length → st1.pcs i = .done := by
      rcases hfin with h1 | h1
      · exact absurd h1 hc
      · exact h1
    have hall : (List.range job.segments.length).all
        (fun i => decide (st1.pcs i = TaskPc.done)) = true := by
      rw [List.all_eq_true]
      intro i hi
      simpa using hdone i (List.mem_range.mp hi)
    have hs1 : step env job st1 .closer = { st1 with closed := true } := by
      simp [step, hc, closerStep, hall]
    obtain ⟨st2, hst2⟩ : ∃ st2 : ClipState, st2 = { st1 with closed := true } := ⟨_, rfl⟩
    rw [← hst2] at hs1
    have hinv2 : Inv env job st2 := hs1 ▸ inv_step env job st1 .closer hinv1
    have hcl2 : st2.closed = true := by rw [hst2]
    have hc2 : st2.crashed = false := by rw [hst2]; simpa using hc
    rw [hs1]
    have hs2 : step env job st2 .main = mainStep env job st2 := by
      simp [step, hc2]
    rw [hs2]
    rcases hm : st2.main with _ | e | ⟨p, err⟩
    · rcases hch : st2.chan with _ | ⟨x, rest⟩
      · have : mainStep env job st2 = assemble env job st2 := by
          simp [mainStep, hm, hch, hcl2]
        rw [this]
        exact Or.inl (assemble_pcs env job _).2.2
      · obtain ⟨e, rfl⟩ := hinv2.chanSome x (by rw [hch]; simp)
        exact Or.inr ⟨e, by simp [mainStep, hm, hch]⟩
    · exact Or.inl ⟨[], some e, by simp [mainStep, hm]⟩
    · exact Or.inl ⟨p, err, by simp [mainStep, hm]⟩

theorem step_buffer_other (env : Env) (job : ClipJob) (st : ClipState) (a : Action) (i : Nat)
    (ha : a ≠ .task i) : (step env job st a).buffer i = st.buffer i := by
  unfold step
  split_ifs
  · rfl
  · cases a with
    | task j =>
      have hij : i ≠ j := fun h => ha (by rw [h])
      simp only
      split_ifs
      · unfold taskStep
        split
        · simp only
          split
          · split_ifs <;> rfl
          · rfl
        · split_ifs
          · split
            · exact Function.update_noteq hij _ _
            · rfl
            · rfl
          · rfl
        · rfl
      · rfl
    | closer =>
      simp only [closerStep]
      split_ifs <;> rfl
    | main =>
      simp only [mainStep]
      split
      · rfl
      · rfl
      · split
        · rfl
        · rfl
        · split_ifs
          · rw [assemble_eq]
            split
            · rfl
            · split <;> rfl
          · rfl

theorem MakeClip_of_fetch (env : Env) (sched : List Action) (ch : Str) (w w1 : World)
    (segs : List Str) (hs : FetchTwitchStream env ch 1 w = (.ok segs, w1)) :
    MakeClip env sched ch w = clipBody env sched ch segs w1 := by
  simp only [MakeClip, hs]

theorem clipBody_trace (env : Env) (sched : List Action) (ch : Str) (w : World)
    (segs : List Str) :
    (clipBody env sched ch segs w).2.trace =
      w.trace ++ (run env (jobOf env ch segs w) ClipState.init sched).events := by
  unfold clipBody
  simp only
  split
  · rfl
  · split_ifs <;> rfl

theorem clipBody_outcome (env : Env) (sched : List Action) (ch : Str) (w : World)
    (segs : List Str) (p : Str) (err : Option GoErr)
    (h : (run env (jobOf env ch segs w) ClipState.init sched).main = .returned p err) :
    (clipBody env sched ch segs w).1 = .ret p err := by
  unfold clipBody
  simp only [h]

/-- Claim C1: in `MakeClip`, after a successful resolution and when every download
succeeds (`body i` is the body fetched from the `i`-th URL), under every
schedule of the goroutines: the history of the call is the one of the
resolution followed by the actions of the goroutines; every input handed to
the transcoder is exactly `body 0 ++ body 1 ++ ... ++ body (n-1)`; every slot
of the buffer is empty or holds its own body; no step other than one of task
`i` changes slot `i`; no goroutine panics; and whenever the schedule lets the
goroutines finish (and the pipe to the transcoder can be made) the transcoder
is run with that stream, whatever the order before. -/
theorem MakeClip_stream_order (env : Env) (ch : Str) (w w1 : World) (segs : List Str)
    (body : Nat → Str) (hs : FetchTwitchStream env ch 1 w = (.ok segs, w1))
    (hok : ∀ i, i < segs.length → (env.download i (segs.getD i [])).body? = some (body i))
    (sched : List Action) :
    (MakeClip env sched ch w).2.trace =
      w1.trace ++ (run env (jobOf env ch segs w1) ClipState.init sched).events ∧
    (∀ args inp,
      Event.exec args inp ∈ (run env (jobOf env ch segs w1) ClipState.init sched).events →
      inp = some ((List.range segs.length).flatMap body)) ∧
    (∀ i, i < segs.length →
      (run env (jobOf env ch segs w1) ClipState.init sched).buffer i = none ∨
      (run env (jobOf env ch segs w1) ClipState.init sched).buffer i = some (body i)) ∧
    (∀ (st : ClipState) (a : Action) (i : Nat), a ≠ .task i →
      (step env (jobOf env ch segs w1) st a).buffer i = st.buffer i) ∧
    (run env (jobOf env ch segs w1) ClipState.init sched).crashed = false ∧
    (env.pipeErr = none →
      Event.exec (clipArgs env (jobOf env ch segs w1))
          (some ((List.range segs.length).flatMap body)) ∈
        (run env (jobOf env ch segs w1) ClipState.init (sched ++ finish segs.length)).events ∧
      Event.exec (clipArgs env (jobOf env ch segs w1))
          (some ((List.range segs.length).flatMap body)) ∈
        (MakeClip env (sched ++ finish segs.length) ch w).2.trace) := by
  have hexp : expectedInput env (jobOf env ch segs w1) = (List.range segs.length).flatMap body := by
    unfold expectedInput
    apply flatMap_congr_range
    intro i hi
    show ((env.download i (segs.getD i [])).body?).getD [] = body i
    rw [hok i hi]; rfl
  have hno : ∀ st : ClipState, Inv env (jobOf env ch segs w1) st →
      st.chan = [] ∧ st.futile = false := by
    intro st hinv
    by_contra hne
    have : st.chan ≠ [] ∨ st.futile = true := by
      by_cases h1 : st.chan = []
      · right
        by_contra h2
        exact hne ⟨h1, by simpa using h2⟩
      · exact Or.inl h1
    obtain ⟨i, hi, hb⟩ := hinv.errorFails this
    have := hok i hi
    rw [show env.download i (segs.getD i []) = outcomeOf env (jobOf env ch segs w1) i from rfl,
      hb] at this
    exact absurd this (by simp)
  have hinv := inv_run env (jobOf env ch segs w1) sched _ (inv_init env _)
  have hinv2 := inv_run env (jobOf env ch segs w1) (sched ++ finish segs.length) _
    (inv_init env _)
  refine ⟨?_, ?_, ?_, ?_, ?_, ?_⟩
  · rw [MakeClip_of_fetch env sched ch w w1 segs hs, clipBody_trace]
  · intro args inp hmem
    rw [← hexp]
    exact (hinv.execInput args inp hmem).2
  · intro i hi
    rcases hinv.slot i with h1 | h1
    · exact Or.inl h1
    · right
      rw [h1]
      exact hok i hi
  · exact fun st a i ha => step_buffer_other env _ st a i ha
  · by_contra hc
    have := hinv.crashedFutile (by simpa using hc)
    rw [(hno _ hinv).2] at this
    exact absurd this (by decide)
  · intro hp
    have hmem : Event.exec (clipArgs env (jobOf env ch segs w1))
        (some ((List.range segs.length).flatMap body)) ∈
        (run env (jobOf env ch segs w1) ClipState.init (sched ++ finish segs.length)).events := by
      obtain ⟨p, err, hret⟩ : ∃ p err, (run env (jobOf env ch segs w1) ClipState.init
          (sched ++ finish segs.length)).main = .returned p err := by
        rw [run_append]
        rcases finish_returns env (jobOf env ch segs w1) _ hinv with h1 | ⟨e, h1⟩
        · exact h1
        · rw [← run_append] at h1
          have hf := hinv2.leavingFutile e h1
          rw [(hno _ hinv2).2] at hf
          exact absurd hf (by decide)
      rw [← hexp]
      rcases hinv2.returnedOk p err hret with hr | ⟨-, -, hf⟩
      · exact hinv2.pipeExec p err hret hr hp
      · rw [(hno _ hinv2).2] at hf
        exact absurd hf (by decide)
    refine ⟨hmem, ?_⟩
    rw [MakeClip_of_fetch env _ ch w w1 segs hs, clipBody_trace]
    exact List.mem_append_right _ hmem

theorem fetch_envClip :
    FetchTwitchStream envClip "chan".toList 1 World.initial =
      (.ok ["https://s/1.ts".toList, "https://s/2.ts".toList],
        (pass envClip "chan".toList World.initial).2) :=
  fetch_ret envClip "chan".toList 1 World.initial _ _ (by decide) (by rfl)

/-- Witness of C1: task 1 completes before task 0 even starts; the stream is still
the first body followed by the second. -/
theorem MakeClip_stream_order_witness :
    Event.exec (clipArgs envClip (jobOf envClip "chan".toList
        ["https://s/1.ts".toList, "https://s/2.ts".toList]
        (pass envClip "chan".toList World.initial).2))
      (some "firstsecond".toList) ∈
    (MakeClip envClip ([.task 1, .task 1, .task 0] ++ finish 2) "chan".toList
      World.initial).2.trace :=
  ((MakeClip_stream_order envClip "chan".toList World.initial _ _
    (fun i => if i = 0 then "first".toList else "second".toList)
    fetch_envClip
    (fun i hi => by
      have h2 : i < 2 := hi
      interval_cases i <;> rfl)
    [.task 1, .task 1, .task 0]).2.2.2.2.2 rfl).2

/-- What holds of `MakeClip` after a successful resolution when at least one
download fails (the fetch errors or reading the body errors), under every
schedule of the goroutines: no action of the assembly happens (the directory
is not made, the transcoder is not run); if `MakeClip` has returned, it
returned the empty path and a non-nil error; and once the schedule lets the
goroutines finish and gives `MakeClip` one more step, `MakeClip` has returned
that way unless a task has panicked. Whatever the downloads do, the assembly
is reached only when every slot of the buffer holds a body. -/
theorem download_failure_safety (env : Env) (ch : Str) (w w1 : World) (segs : List Str)
    (hs : FetchTwitchStream env ch 1 w = (.ok segs, w1))
    (k : Nat) (hk : k < segs.length) (hfail : (env.download k (segs.getD k [])).body? = none)
    (sched : List Action) :
    (∀ ev ∈ (run env (jobOf env ch segs w1) ClipState.init sched).events,
      Event.isAssembly ev = false) ∧
    (∀ p err, (run env (jobOf env ch segs w1) ClipState.init sched).main = .returned p err →
      p = [] ∧ ∃ e, err = some e) ∧
    (∀ p err, (MakeClip env sched ch w).1 = .ret p err → p = [] ∧ ∃ e, err = some e) ∧
    ((run env (jobOf env ch segs w1) ClipState.init
        (sched ++ finish segs.length ++ [.main])).crashed = true ∨
      ∃ e, (run env (jobOf env ch segs w1) ClipState.init
        (sched ++ finish segs.length ++ [.main])).main = .returned [] (some e)) ∧
    (∀ (env2 : Env) (job : ClipJob) (sched2 : List Action),
      (∃ ev ∈ (run env2 job ClipState.init sched2).events, Event.isAssembly ev = true) →
      ∀ i, i < job.segments.length →
        ∃ b, (run env2 job ClipState.init sched2).buffer i = some b) := by
  have hall : ∀ (env2 : Env) (job : ClipJob) (st : ClipState), Inv env2 job st →
      (∃ ev ∈ st.events, Event.isAssembly ev = true) →
      ∀ i, i < job.segments.length → ∃ b, (outcomeOf env2 job i).body? = some b ∧
        st.buffer i = some b := by
    intro env2 job st hinv hr
    obtain ⟨h1, h2, h3⟩ := hinv.reachedAll hr
    exact (input_at_close env2 job st hinv h1 h2 h3).2
  have hnr : ∀ st : ClipState, Inv env (jobOf env ch segs w1) st →
      ¬ ∃ ev ∈ st.events, Event.isAssembly ev = true := by
    intro st hinv hr
    obtain ⟨b, hb, -⟩ := hall env _ st hinv hr k hk
    rw [show outcomeOf env (jobOf env ch segs w1) k = env.download k (segs.getD k []) from rfl,
      hfail] at hb
    exact absurd hb (by simp)
  have hret : ∀ st : ClipState, Inv env (jobOf env ch segs w1) st → ∀ p err,
      st.main = .returned p err → p = [] ∧ ∃ e, err = some e := by
    intro st hinv p err hm
    rcases hinv.returnedOk p err hm with hr | ⟨h1, h2, -⟩
    · exact absurd hr (hnr st hinv)
    · exact ⟨h1, h2⟩
  have hinv := inv_run env (jobOf env ch segs w1) sched _ (inv_init env _)
  have hinv2 := inv_run env (jobOf env ch segs w1) (sched ++ finish segs.length) _
    (inv_init env _)
  refine ⟨?_, hret _ hinv, ?_, ?_, ?_⟩
  · intro ev hev
    by_contra hne
    exact hnr _ hinv ⟨ev, hev, by simpa using hne⟩
  · intro p err hm
    rw [MakeClip_of_fetch env sched ch w w1 segs hs] at hm
    unfold clipBody at hm
    simp only at hm
    rcases hmain : (run env (jobOf env ch segs w1) ClipState.init sched).main with
      _ | e | ⟨p2, err2⟩
    · rw [hmain] at hm
      simp only at hm
      split_ifs at hm
    · rw [hmain] at hm
      simp only at hm
      split_ifs at hm
    · rw [hmain] at hm
      simp only [Outcome.ret.injEq] at hm
      obtain ⟨rfl, rfl⟩ := hm
      exact hret _ hinv _ _ hmain
  · rw [run_append]
    show (step env _ (run env (jobOf env ch segs w1) ClipState.init
        (sched ++ finish segs.length)) .main).crashed = true ∨
      ∃ e, (step env _ (run env (jobOf env ch segs w1) ClipState.init
        (sched ++ finish segs.length)) .main).main = .returned [] (some e)
    by_cases hc : (run env (jobOf env ch segs w1) ClipState.init
        (sched ++ finish segs.length)).crashed = true
    · left
      rw [step_crashed env _ _ _ hc]
      exact hc
    · right
      have hfin : (∃ p err, (run env (jobOf env ch segs w1) ClipState.init
          (sched ++ finish segs.length)).main = .returned p err) ∨
          ∃ e, (run env (jobOf env ch segs w1) ClipState.init
            (sched ++ finish segs.length)).main = .leaving e := by
        rw [run_append]
        exact finish_returns env (jobOf env ch segs w1) _ hinv
      rcases hfin with ⟨p, err, hm⟩ | ⟨e, hm⟩
      · obtain ⟨rfl, e, rfl⟩ := hret _ hinv2 p err hm
        exact ⟨e, by simp [step, hc, mainStep, hm]⟩
      · exact ⟨e, by simp [step, hc, mainStep, hm]⟩
  · intro env2 job sched2 hr i hi
    obtain ⟨b, -, hb⟩ := hall env2 job _ (inv_run env2 job sched2 _ (inv_init env2 job)) hr i hi
    exact ⟨b, hb⟩

theorem fetch_envDown :
    FetchTwitchStream envDown "chan".toList 1 World.initial =
      (.ok ["https://s/1.ts".toList, "https://s/2.ts".toList],
        (pass envDown "chan".toList World.initial).2) :=
  fetch_ret envDown "chan".toList 1 World.initial _ _ (by decide) (by rfl)

/-- Claim C2 fails on the code: on a live channel with two segments whose
fetches both fail, the resolution succeeds and a download fails, yet under the
schedule where task 0 sends its error, `MakeClip` receives it and sets `futile`
(line 150), and task 1 then takes its step before the `return` of line 151,
task 1 panics on the nil response (line 131): `MakeClip` stands between lines
150 and 151 when the process dies and never returns its error. No action of
the assembly has happened. -/
theorem MakeClip_panics_before_return :
    (FetchTwitchStream envDown "chan".toList 1 World.initial).1 =
      .ok ["https://s/1.ts".toList, "https://s/2.ts".toList] ∧
    (envDown.download 1 "https://s/2.ts".toList).body? = none ∧
    (run envDown jobTwo ClipState.init [.task 0, .main]).main =
      .leaving (.external "connection refused".toList) ∧
    (run envDown jobTwo ClipState.init ([.task 0, .main, .task 1] ++ finish 2)).crashed = true ∧
    (run envDown jobTwo ClipState.init ([.task 0, .main, .task 1] ++ finish 2)).main =
      .leaving (.external "connection refused".toList) ∧
    (MakeClip envDown ([.task 0, .main, .task 1] ++ finish 2) "chan".toList World.initial).1 =
      .panic ∧
    (∀ ev ∈ (run envDown jobTwo ClipState.init
      ([.task 0, .main, .task 1] ++ finish 2)).events, Event.isAssembly ev = false) := by
  refine ⟨by rw [fetch_envDown], by decide, by decide, by decide, by decide, ?_, by decide⟩
  rw [MakeClip_of_fetch envDown _ "chan".toList World.initial _ _ fetch_envDown]
  rfl

/-- Claim C10 fails on the code: with two segments whose fetches both fail, task 0
sends its error, `MakeClip` receives it and sets `futile`; task 1 then finds
`futile` set with its own fetch failed, skips the first test of line 126 and
dereferences the nil response at line 131: it panics. -/
theorem clip_task_panics_under_futile :
    (run envDown jobTwo ClipState.init [.task 0, .main]).futile = true ∧
    (run envDown jobTwo ClipState.init [.task 0, .main]).crashed = false ∧
    (run envDown jobTwo ClipState.init [.task 0, .main]).pcs 1 = .start ∧
    outcomeOf envDown jobTwo 1 = .fail (.external "connection refused".toList) false ∧
    (run envDown jobTwo ClipState.init [.task 0, .main, .task 1]).crashed = true := by
  decide

end TwitchClipper
